import Mathlib

/-!
# Verification of the VTT sentence-translation core (`vttParser.ts`)

Shallow embedding of the four core transformations of the repository's
`VTTParser` class — `parse`, `groupCuesIntoSentences`, `redistributeTranslation`,
`reconstructVTT` — together with proofs of the specification's testable
properties.

JavaScript string primitives (`split`, `trim`, `includes`, `join`,
`replace(/\s+/g,' ')`) are modelled by executable functions over `List Char`
(`String.data`).  JS `string.length` counts UTF-16 units while `String.length`
counts characters; none of the inputs handled here make the two differ in a way
a claim depends on, and the model uses character counts throughout.
-/

/-! ## JS string primitives -/

/-- JS `s.split(sep)` for a single-character separator, accumulator form.
The accumulator holds the current piece, reversed. -/
def splitCharAux (sep : Char) : List Char → List Char → List String
  | [], acc => [String.mk acc.reverse]
  | c :: cs, acc =>
    if c = sep then String.mk acc.reverse :: splitCharAux sep cs []
    else splitCharAux sep cs (c :: acc)

/-- JS `s.split(sep)` for a single-character separator (e.g. `'\n'`, `' '`). -/
def splitChar (sep : Char) (s : String) : List String :=
  splitCharAux sep s.data []

/-- Character-list core of JS `String.prototype.trim`: drop whitespace from
both ends. -/
def trimData (l : List Char) : List Char :=
  ((l.dropWhile Char.isWhitespace).reverse.dropWhile Char.isWhitespace).reverse

/-- JS `s.trim()`. -/
def jsTrim (s : String) : String :=
  String.mk (trimData s.data)

/-- The literal `-->` used as the timestamp separator token. -/
def arrowToken : List Char := ['-', '-', '>']

/-- JS `line.includes('-->')`: some position starts an occurrence of `-->`. -/
def containsArrow : List Char → Bool
  | [] => false
  | c :: cs => arrowToken.isPrefixOf (c :: cs) || containsArrow cs

/-- JS `line.split('-->')`, accumulator form over `List Char`: at each position
either an occurrence of the separator starts (close the current piece and skip
its three characters) or the character joins the current piece. -/
def splitArrowAux : List Char → List Char → List (List Char)
  | [], acc => [acc.reverse]
  | c :: cs, acc =>
    if arrowToken.isPrefixOf (c :: cs) then acc.reverse :: splitArrowAux (cs.drop 2) []
    else splitArrowAux cs (c :: acc)
termination_by l _ => l.length
decreasing_by
  all_goals simp [List.length_drop]
  omega

/-- JS `line.split('-->')`. -/
def splitArrow (s : String) : List (List Char) :=
  splitArrowAux s.data []

/-- JS `arr.join(sep)`. -/
def jsJoin (sep : String) : List String → String
  | [] => ""
  | [s] => s
  | s :: rest => s ++ sep ++ jsJoin sep rest

/-- JS `s.replace(/\s+/g, ' ')`: collapse every whitespace run to one space.
The flag records whether the previous character was whitespace (i.e. whether we
are inside a run that has already emitted its space). -/
def collapseWSAux : List Char → Bool → List Char
  | [], _ => []
  | c :: cs, insideRun =>
    if c.isWhitespace then
      if insideRun then collapseWSAux cs true else ' ' :: collapseWSAux cs true
    else c :: collapseWSAux cs false

/-- JS `s.replace(/\s+/g, ' ')`. -/
def collapseWS (s : String) : String :=
  String.mk (collapseWSAux s.data false)

/-- Effect of splitting on the regex `/\r?\n/` instead of `'\n'`: every CRLF
pair collapses to a bare LF before the single-character split. -/
def stripCRLF : List Char → List Char
  | [] => []
  | '\r' :: '\n' :: rest => '\n' :: stripCRLF rest
  | c :: rest => c :: stripCRLF rest

/-! ## Data model (`VTTCue`, `VTTGroup`) -/

/-- `interface VTTCue` of the source. `originalIndex` is assigned sequentially
from 0 at parse time, hence a `Nat`. -/
structure VTTCue where
  startTime : String
  endTime : String
  textLines : List String
  originalIndex : Nat
deriving DecidableEq

/-- `interface VTTGroup` of the source. -/
structure VTTGroup where
  cues : List VTTCue
  combinedText : String
deriving DecidableEq

/-! ## `VTTParser.parse` -/

/-- The `currentCue` being accumulated inside `parse` (a `Partial<VTTCue>`
whose `textLines` is always initialised). -/
structure PartialCue where
  startTime : String
  endTime : String
  textLines : List String
deriving DecidableEq

/-- Finalising `currentCue` into a pushed cue with the next index. -/
def finalizeCue (pc : PartialCue) (idx : Nat) : VTTCue :=
  ⟨pc.startTime, pc.endTime, pc.textLines, idx⟩

/-- The loop body of `VTTParser.parse`, iterating over the physical lines with
state `(currentCue, cues, cueIndex)`.  Mirrors the source line by line:
skip blank lines and the `WEBVTT` header; a line containing `-->` flushes any
open cue with at least one text line and opens a new cue from the trimmed
pieces around the separator; any other non-blank line is appended (trimmed) to
the open cue's `textLines`; at end of input a still-open cue with text is
finalised. -/
def parseLines : List String → Option PartialCue → List VTTCue → Nat → List VTTCue
  | [], cur, acc, _idx =>
    match cur with
    | some pc => if pc.textLines ≠ [] then acc ++ [finalizeCue pc _idx] else acc
    | none => acc
  | raw :: rest, cur, acc, idx =>
    let line := jsTrim raw
    if line = "" ∨ line = "WEBVTT" then
      parseLines rest cur acc idx
    else if containsArrow line.data then
      let flush : List VTTCue × Nat :=
        match cur with
        | some pc =>
          if pc.textLines ≠ [] then (acc ++ [finalizeCue pc idx], idx + 1) else (acc, idx)
        | none => (acc, idx)
      let parts := (splitArrow line).map fun p => jsTrim (String.mk p)
      parseLines rest (some ⟨parts.headD "", parts.getD 1 "", []⟩) flush.1 flush.2
    else
      match cur with
      | some pc => parseLines rest (some ⟨pc.startTime, pc.endTime, pc.textLines ++ [line]⟩) acc idx
      | none => parseLines rest none acc idx

/-- `VTTParser.parse`. -/
def parse (vttContent : String) : List VTTCue :=
  parseLines (splitChar '\n' vttContent) none [] 0

/-! ## `VTTParser.groupCuesIntoSentences` -/

/-- Membership in the character class of `SENTENCE_ENDINGS = /[.!?â€¦]+$/`.
The source file literally contains the three characters U+00E2 `â`,
U+20AC `€`, U+00A6 `¦` (a double-encoded ellipsis), not U+2026 `…`. -/
def isSentenceEndingChar (c : Char) : Bool :=
  c = '.' || c = '!' || c = '?' || c = 'â' || c = '€' || c = '¦'

/-- JS `SENTENCE_ENDINGS.test s`: the regex `/[.!?â€¦]+$/` (one or more class
characters anchored at the end) matches iff the string is non-empty and its
final character is in the class. -/
def sentenceEndingsTest (s : String) : Bool :=
  (s.data.getLast?.map isSentenceEndingChar).getD false

/-- Membership in the character class of `SENTENCE_STARTERS = /^[A-Z\-"'"]/`:
an ASCII uppercase letter, a hyphen, a straight double quote (listed twice in
the source class) or a straight single quote. -/
def isSentenceStarterChar (c : Char) : Bool :=
  ('A' ≤ c && c ≤ 'Z') || c = '-' || c = '"' || c = Char.ofNat 39

/-- JS `SENTENCE_STARTERS.test s`: the regex `/^[A-Z\-"'"]/` matches iff the
string is non-empty and its first character is in the class. -/
def sentenceStartersTest (s : String) : Bool :=
  (s.data.head?.map isSentenceStarterChar).getD false

/-- `VTTParser.combineCueTexts`: join each cue's lines with spaces, join the
cues with spaces, collapse whitespace runs, trim. -/
def combineCueTexts (cues : List VTTCue) : String :=
  jsTrim (collapseWS (jsJoin " " (cues.map fun cue => jsJoin " " cue.textLines)))

/-- The loop of `groupCuesIntoSentences` over the adjacent pairs
`(cues[i-1], cues[i])`, carrying the previous cue and the open group. -/
def groupLoop : VTTCue → List VTTCue → List VTTCue → List VTTGroup
  | _, [], currentGroup =>
    if currentGroup.length > 0 then [⟨currentGroup, combineCueTexts currentGroup⟩] else []
  | prev, next :: rest, currentGroup =>
    let lastLine := prev.textLines.getLastD ""
    let nextFirstLine := next.textLines.headD ""
    if sentenceEndingsTest (jsTrim lastLine) && sentenceStartersTest (jsTrim nextFirstLine) then
      ⟨currentGroup, combineCueTexts currentGroup⟩ :: groupLoop next rest [next]
    else
      groupLoop next rest (currentGroup ++ [next])

/-- `VTTParser.groupCuesIntoSentences`. -/
def groupCuesIntoSentences : List VTTCue → List VTTGroup
  | [] => []
  | c :: cs => groupLoop c cs [c]

/-! ## `VTTParser.redistributeTranslation` -/

/-- `group.cues.reduce((sum, cue) => sum + cue.textLines.length, 0)`. -/
def totalLinesOf (cues : List VTTCue) : Nat :=
  cues.foldl (fun sum cue => sum + cue.textLines.length) 0

/-- `translatedText.split(/\r?\n/).map(l => l.trim()).filter(l => l.length > 0)`. -/
def splitTranslatedText (translatedText : String) : List String :=
  ((splitChar '\n' (String.mk (stripCRLF translatedText.data))).map jsTrim).filter
    fun line => line.length > 0

/-- The longest-line scan of the under-fill loop: strict `>` keeps the first
occurrence of the maximum length.  State: position `i`, best index, best
length (both initialised to 0). -/
def findLongestAux : List String → Nat → Nat → Nat → Nat
  | [], _, longestIndex, _ => longestIndex
  | l :: ls, i, longestIndex, longestLength =>
    if l.length > longestLength then findLongestAux ls (i + 1) i l.length
    else findLongestAux ls (i + 1) longestIndex longestLength

/-- Index of the longest translated line (first occurrence on ties). -/
def findLongestIndex (translatedLines : List String) : Nat :=
  findLongestAux translatedLines 0 0 0

/-- `translatedLines.splice(longestIndex, 1, firstHalf, secondHalf)`. -/
def spliceSplit (ls : List String) (i : Nat) (firstHalf secondHalf : String) : List String :=
  ls.take i ++ [firstHalf, secondHalf] ++ ls.drop (i + 1)

/-- Fuel-indexed form of the under-fill `while` loop of
`redistributeTranslation`.  Each successful split lengthens the list by one,
so `totalLines - translatedLines.length` fuel suffices exactly (see
`underfillLoop`); exhausted fuel is unreachable from `underfillLoop`'s start
state. -/
def underfillGo : Nat → Nat → List String → List String
  | 0, _, translatedLines => translatedLines
  | gas + 1, totalLines, translatedLines =>
    if translatedLines.length < totalLines ∧ 0 < translatedLines.length then
      let longestIndex := findLongestIndex translatedLines
      let lineToSplit := translatedLines.getD longestIndex ""
      let words := splitChar ' ' lineToSplit
      if words.length > 1 then
        let midPoint := (words.length + 1) / 2
        let firstHalf := jsJoin " " (words.take midPoint)
        let secondHalf := jsJoin " " (words.drop midPoint)
        underfillGo gas totalLines (spliceSplit translatedLines longestIndex firstHalf secondHalf)
      else translatedLines
    else translatedLines

/-- The under-fill `while (translatedLines.length < totalLines &&
translatedLines.length > 0)` loop: split the longest line at
`Math.ceil(words.length / 2)` while possible, `break` on a one-word line. -/
def underfillLoop (totalLines : Nat) (translatedLines : List String) : List String :=
  underfillGo (totalLines - translatedLines.length) totalLines translatedLines

/-- The over-fill branch: `splice(totalLines - 1)` the excess out and rejoin it
(space-separated) into the last slot.  When `totalLines = 0` the JS index
`totalLines - 1` is `-1`, so the splice removes the final element and the
subsequent write to `translatedLines[-1]` does not change the array. -/
def overfillAdjust (totalLines : Nat) (translatedLines : List String) : List String :=
  if translatedLines.length > totalLines then
    if totalLines = 0 then
      translatedLines.take (translatedLines.length - 1)
    else
      translatedLines.take (totalLines - 1) ++
        [jsJoin " " (translatedLines.drop (totalLines - 1))]
  else translatedLines

/-- The refill walk of `redistributeTranslation`: each cue consumes one
translated line per original slot (empty-string fallback past the end), then
blank lines are filtered from the new cue's `textLines`. -/
def refillCues : List VTTCue → List String → List VTTCue
  | [], _ => []
  | cue :: rest, translatedLines =>
    let newTextLines :=
      (List.range cue.textLines.length).map fun i => translatedLines.getD i ""
    { cue with textLines := newTextLines.filter fun line => (jsTrim line).length > 0 } ::
      refillCues rest (translatedLines.drop cue.textLines.length)

/-- `VTTParser.redistributeTranslation`. -/
def redistributeTranslation (group : VTTGroup) (translatedText : String) : List VTTCue :=
  let totalLines := totalLinesOf group.cues
  let translatedLines := splitTranslatedText translatedText
  let translatedLines := underfillLoop totalLines translatedLines
  let translatedLines := overfillAdjust totalLines translatedLines
  refillCues group.cues translatedLines

/-! ## `VTTParser.reconstructVTT` -/

/-- The timestamp line `${cue.startTime} --> ${cue.endTime}` emitted for a cue. -/
def tsLine (cue : VTTCue) : String :=
  cue.startTime ++ " --> " ++ cue.endTime

/-- The text appended for one cue by the reconstruction loop. -/
def cueBlock (cue : VTTCue) : String :=
  tsLine cue ++ "\n" ++ jsJoin "\n" cue.textLines ++ "\n\n"

/-- `VTTParser.reconstructVTT`: sort a copy by `originalIndex` (JS
`Array.prototype.sort` is stable), emit the header and the cue blocks, trim. -/
def reconstructVTT (cues : List VTTCue) : String :=
  let sortedCues := cues.mergeSort fun a b => a.originalIndex ≤ b.originalIndex
  jsTrim (sortedCues.foldl (fun result cue => result ++ cueBlock cue) "WEBVTT\n\n")

/-! ## Proof-support definitions -/

/-- Whitespace-free at the front. -/
def HeadNotWS (l : List Char) : Prop :=
  ∀ c, l.head? = some c → c.isWhitespace = false

/-- Whitespace-free at the back. -/
def LastNotWS (l : List Char) : Prop :=
  ∀ c, l.getLast? = some c → c.isWhitespace = false

/-- The sentence-boundary test exactly as the grouping loop evaluates it on an
adjacent pair of cues. -/
def codeBoundary (prev next : VTTCue) : Bool :=
  sentenceEndingsTest (jsTrim (prev.textLines.getLastD "")) &&
    sentenceStartersTest (jsTrim (next.textLines.headD ""))

/-- Claim C4's terminal-punctuation class: `.`, `!`, `?`, or an ellipsis
character (U+2026). -/
def claimSentenceEndChar (c : Char) : Bool :=
  c = '.' || c = '!' || c = '?' || c = '…'

/-- Claim C4's sentence-ending condition: the trimmed line ends in one or more
terminal-punctuation characters, i.e. its last character is in the class. -/
def claimSentenceEnd (s : String) : Bool :=
  (s.data.getLast?.map claimSentenceEndChar).getD false

/-- Claim C4's sentence-starting class: an uppercase letter, a hyphen, or a
straight or curly quotation mark. -/
def claimSentenceStartChar (c : Char) : Bool :=
  c.isUpper || c = '-' || c = '"' || c = Char.ofNat 39 ||
    c = '“' || c = '”' || c = '‘' || c = '’'

/-- Claim C4's sentence-starting condition on the trimmed first line. -/
def claimSentenceStart (s : String) : Bool :=
  (s.data.head?.map claimSentenceStartChar).getD false

/-- Claim C4's boundary predicate between an adjacent pair of cues. -/
def claimBoundary (prev next : VTTCue) : Bool :=
  claimSentenceEnd (jsTrim (prev.textLines.getLastD "")) &&
    claimSentenceStart (jsTrim (next.textLines.headD ""))

/-- Splitting a cue sequence into contiguous chunks, closing the open chunk
between `prev` and `next` exactly when `p prev next` holds, otherwise
appending `next` to the open chunk. -/
def chunkLoop (p : VTTCue → VTTCue → Bool) :
    VTTCue → List VTTCue → List VTTCue → List (List VTTCue)
  | _, [], currentChunk => [currentChunk]
  | prev, next :: rest, currentChunk =>
    if p prev next then currentChunk :: chunkLoop p next rest [next]
    else chunkLoop p next rest (currentChunk ++ [next])

/-- Chunking of a cue sequence by a boundary predicate (empty input gives no
chunks; the first cue opens the first chunk). -/
def chunksBy (p : VTTCue → VTTCue → Bool) : List VTTCue → List (List VTTCue)
  | [] => []
  | c :: cs => chunkLoop p c cs [c]

/-- Counterexample input for C4: the first cue's line ends with a real
ellipsis `…` (U+2026) and the second cue's line starts with a curly quote
`“` (U+201C); the claim's classes accept both, the code's classes accept
neither. -/
def cueEllipsis : VTTCue := ⟨"00:00.000", "00:01.000", ["Wait…"], 0⟩

/-- See `cueEllipsis`. -/
def cueCurlyQuote : VTTCue := ⟨"00:01.000", "00:02.000", ["“Yes."], 1⟩

/-- A trimmed, non-empty string (the shape of every entry of
`splitTranslatedText`'s result). -/
def TrimmedNE (s : String) : Prop := jsTrim s = s ∧ s ≠ ""

/-- Example group with `slotCount = 2` (one cue, two original line slots) used
by the spec's under-fill and over-fill examples. -/
def exampleGroup2 : VTTGroup :=
  ⟨[⟨"00:00.000", "00:02.000", ["a", "b"], 0⟩], "a b"⟩

/-- Example group with a single one-line cue. -/
def exampleGroup1 : VTTGroup :=
  ⟨[⟨"00:00.000", "00:01.000", ["Hello"], 0⟩], "Hello"⟩

/-- The maximum line length occurring in a list of translated lines. -/
def maxLen (ls : List String) : Nat := ls.foldr (fun l m => max l.length m) 0

/-- Claim C2's description of the longest-line choice: the first index whose
line attains the maximum length. -/
def claimLongestIndex (ls : List String) : Nat :=
  ls.findIdx fun l => l.length = maxLen ls

/-- Claim C2's description of one under-fill step: take the currently longest
line (first occurrence on equal length); if it has at least two space-separated
words, replace it in place by its first `ceil(wordCount/2)` words and its
remaining words, each re-joined with single spaces; otherwise no step is
possible. -/
def claimSplitStep (ls : List String) : Option (List String) :=
  let i := claimLongestIndex ls
  let words := splitChar ' ' (ls.getD i "")
  if 2 ≤ words.length then
    some (ls.take i ++
      [jsJoin " " (words.take ((words.length + 1) / 2)),
       jsJoin " " (words.drop ((words.length + 1) / 2))] ++ ls.drop (i + 1))
  else none

/-- The under-fill loop defined directly by well-founded recursion on
`totalLines - translatedLines.length`, as claim C10 describes its
termination. -/
def underfillLoopWF (totalLines : Nat) (translatedLines : List String) : List String :=
  if h : translatedLines.length < totalLines ∧ 0 < translatedLines.length then
    let longestIndex := findLongestIndex translatedLines
    let lineToSplit := translatedLines.getD longestIndex ""
    let words := splitChar ' ' lineToSplit
    if words.length > 1 then
      let midPoint := (words.length + 1) / 2
      underfillLoopWF totalLines
        (spliceSplit translatedLines longestIndex
          (jsJoin " " (words.take midPoint)) (jsJoin " " (words.drop midPoint)))
    else translatedLines
  else translatedLines
termination_by totalLines - translatedLines.length
decreasing_by
  simp only [spliceSplit, List.length_append, List.length_take, List.length_drop,
    List.length_cons, List.length_nil]
  omega

/-- The translated-lines list right after the under-fill phase of
`redistributeTranslation`. -/
def underfillResult (group : VTTGroup) (translatedText : String) : List String :=
  underfillLoop (totalLinesOf group.cues) (splitTranslatedText translatedText)

/-- The translated-lines list as handed to the refill walk of
`redistributeTranslation`. -/
def finalTranslatedLines (group : VTTGroup) (translatedText : String) : List String :=
  overfillAdjust (totalLinesOf group.cues) (underfillResult group translatedText)

/-- The under-fill loop stopped via its `break`: the line list is non-empty and
its (first) longest line has exactly one space-separated word. -/
def EndedByOneWordBreak (ls : List String) : Prop :=
  ls ≠ [] ∧ (splitChar ' ' (ls.getD (findLongestIndex ls) "")).length = 1

/-- `parseLines` with the JS-risky access made explicit: the destructuring
`const [startTime, endTime] = line.split('-->').map(t => t.trim())` is
modelled with `[·]?`, failing when the split yields fewer than two pieces
(which in JS would leave `endTime` undefined). -/
def parseLinesChecked :
    List String → Option PartialCue → List VTTCue → Nat → Option (List VTTCue)
  | [], cur, acc, _idx =>
    match cur with
    | some pc => some (if pc.textLines ≠ [] then acc ++ [finalizeCue pc _idx] else acc)
    | none => some acc
  | raw :: rest, cur, acc, idx =>
    let line := jsTrim raw
    if line = "" ∨ line = "WEBVTT" then
      parseLinesChecked rest cur acc idx
    else if containsArrow line.data then
      let flush : List VTTCue × Nat :=
        match cur with
        | some pc =>
          if pc.textLines ≠ [] then (acc ++ [finalizeCue pc idx], idx + 1) else (acc, idx)
        | none => (acc, idx)
      let parts := (splitArrow line).map fun p => jsTrim (String.mk p)
      match parts[0]?, parts[1]? with
      | some st, some en => parseLinesChecked rest (some ⟨st, en, []⟩) flush.1 flush.2
      | _, _ => none
    else
      match cur with
      | some pc =>
        parseLinesChecked rest (some ⟨pc.startTime, pc.endTime, pc.textLines ++ [line]⟩) acc idx
      | none => parseLinesChecked rest none acc idx

/-- Checked `parse`. -/
def parseChecked (vttContent : String) : Option (List VTTCue) :=
  parseLinesChecked (splitChar '
' vttContent) none [] 0

/-- The under-fill loop with the JS-risky element access made explicit:
`translatedLines[longestIndex].split(' ')` throws in JS when the index is out
of range. -/
def underfillGoChecked : Nat → Nat → List String → Option (List String)
  | 0, _, translatedLines => some translatedLines
  | gas + 1, totalLines, translatedLines =>
    if translatedLines.length < totalLines ∧ 0 < translatedLines.length then
      match translatedLines[findLongestIndex translatedLines]? with
      | none => none
      | some lineToSplit =>
        let words := splitChar ' ' lineToSplit
        if words.length > 1 then
          let midPoint := (words.length + 1) / 2
          underfillGoChecked gas totalLines
            (spliceSplit translatedLines (findLongestIndex translatedLines)
              (jsJoin " " (words.take midPoint)) (jsJoin " " (words.drop midPoint)))
        else some translatedLines
    else some translatedLines

/-- Checked `redistributeTranslation`. -/
def redistributeChecked (group : VTTGroup) (translatedText : String) : Option (List VTTCue) :=
  let totalLines := totalLinesOf group.cues
  let translatedLines := splitTranslatedText translatedText
  (underfillGoChecked (totalLines - translatedLines.length) totalLines translatedLines).map
    fun translatedLines => refillCues group.cues (overfillAdjust totalLines translatedLines)

/-- A well-formed emitted text line (the shape of every `textLines` entry
produced by `parse`): trimmed, non-empty, not the header token, free of the
timestamp separator and of newlines. -/
def WFline (l : String) : Prop :=
  jsTrim l = l ∧ l ≠ "" ∧ l ≠ "WEBVTT" ∧ containsArrow l.data = false ∧ '\n' ∉ l.data

/-- A well-formed timestamp token produced by `parse`: trimmed, free of the
separator and of newlines. -/
def WFtime (s : String) : Prop :=
  jsTrim s = s ∧ containsArrow s.data = false ∧ '\n' ∉ s.data

/-- A well-formed parsed cue. -/
def WFcue (c : VTTCue) : Prop :=
  c.textLines ≠ [] ∧ (∀ l ∈ c.textLines, WFline l) ∧ WFtime c.startTime ∧ WFtime c.endTime

/-- Well-formedness of the open cue during parsing. -/
def WFopenCue : Option PartialCue → Prop
  | none => True
  | some pc => (∀ l ∈ pc.textLines, WFline l) ∧ WFtime pc.startTime ∧ WFtime pc.endTime

/-- Reassign sequential `originalIndex` values starting at `k`. -/
def reindexFrom : Nat → List VTTCue → List VTTCue
  | _, [] => []
  | k, c :: cs => { c with originalIndex := k } :: reindexFrom (k + 1) cs

/-- One cue's reconstruction output without the trailing blank line. -/
def blockCore (cue : VTTCue) : String :=
  tsLine cue ++ "\n" ++ jsJoin "\n" cue.textLines

/-- The reconstruction output before the final trim, re-grouped so the
trailing `"\n\n"` stands alone: `reconstructVTT`'s fold equals
`gBody cues ++ "\n\n"` before trimming. -/
def gBody (cues : List VTTCue) : String :=
  cues.foldl (fun result cue => result ++ "\n\n" ++ blockCore cue) "WEBVTT"

/-- The physical lines of `gBody cues` (what splitting it on newlines gives). -/
def linesFlat : List VTTCue → List String
  | [] => []
  | c :: cs => "" :: tsLine c :: (c.textLines ++ linesFlat cs)

/-! ## Basic lemmas about the string primitives -/

theorem splitCharAux_append (sep : Char) (a b acc : List Char) :
    splitCharAux sep (a ++ sep :: b) acc =
      splitCharAux sep a acc ++ splitCharAux sep b [] := by
  induction a generalizing acc with
  | nil => simp [splitCharAux]
  | cons c cs ih =>
    by_cases h : c = sep <;> simp [splitCharAux, h, ih]

theorem splitCharAux_no_sep (sep : Char) (l acc : List Char) (h : sep ∉ l) :
    splitCharAux sep l acc = [String.mk (acc.reverse ++ l)] := by
  induction l generalizing acc with
  | nil => simp [splitCharAux]
  | cons c cs ih =>
    have hc : c ≠ sep := fun hcs => h (hcs ▸ List.mem_cons_self c cs)
    have hcs : sep ∉ cs := fun hm => h (List.mem_cons_of_mem c hm)
    simp [splitCharAux, hc, ih _ hcs]

theorem splitCharAux_ne_nil (sep : Char) (l acc : List Char) :
    splitCharAux sep l acc ≠ [] := by
  induction l generalizing acc with
  | nil => simp [splitCharAux]
  | cons c cs ih =>
    by_cases h : c = sep <;> simp [splitCharAux, h, ih]

theorem mem_splitCharAux_no_sep (sep : Char) (l acc : List Char)
    (hacc : sep ∉ acc) : ∀ p ∈ splitCharAux sep l acc, sep ∉ p.data := by
  induction l generalizing acc with
  | nil =>
    intro p hp
    simp only [splitCharAux, List.mem_singleton] at hp
    subst hp
    simpa using hacc
  | cons c cs ih =>
    intro p hp
    by_cases h : c = sep
    · simp only [splitCharAux, if_pos h, List.mem_cons] at hp
      rcases hp with hp | hp
      · subst hp; simpa using hacc
      · exact ih [] (by simp) p hp
    · simp only [splitCharAux, if_neg h] at hp
      refine ih (c :: acc) ?_ p hp
      intro hm
      rcases List.mem_cons.mp hm with rfl | hm
      · exact h rfl
      · exact hacc hm

/-- Splitting the join of newline-free pieces recovers the pieces. -/
theorem splitCharAux_jsJoin (ls : List String) (hne : ls ≠ [])
    (hfree : ∀ l ∈ ls, '\n' ∉ l.data) :
    splitCharAux '\n' (jsJoin "\n" ls).data [] = ls := by
  induction ls with
  | nil => cases hne rfl
  | cons l ls ih =>
    cases ls with
    | nil =>
      have : '\n' ∉ l.data := hfree l (by simp)
      simp [jsJoin, splitCharAux_no_sep '\n' l.data [] this]
    | cons l' ls' =>
      have hl : '\n' ∉ l.data := hfree l (by simp)
      have hdata : (l ++ "\n" ++ jsJoin "\n" (l' :: ls')).data =
          l.data ++ '\n' :: (jsJoin "\n" (l' :: ls')).data := by
        simp [String.data_append]
      have ih' := ih (List.cons_ne_nil l' ls')
        (fun x hx => hfree x (List.mem_cons_of_mem l hx))
      rw [show jsJoin "\n" (l :: l' :: ls') = l ++ "\n" ++ jsJoin "\n" (l' :: ls') from rfl,
        hdata, splitCharAux_append, splitCharAux_no_sep '\n' l.data [] hl, ih']
      simp


/-! ## Trimming lemmas -/


theorem getLast?_append_ne_nil {α : Type} (pre m : List α) (h : m ≠ []) :
    (pre ++ m).getLast? = m.getLast? := by
  rw [List.getLast?_append]
  cases hm : m.getLast? with
  | none =>
    have : m = [] := by
      cases m with
      | nil => rfl
      | cons a as => simp [List.getLast?_concat] at hm
    exact absurd this h
  | some x => rfl

theorem dropWhile_ws_of_headNotWS (l : List Char) (h : HeadNotWS l) :
    l.dropWhile Char.isWhitespace = l := by
  cases l with
  | nil => rfl
  | cons c cs =>
    have := h c rfl
    simp [List.dropWhile_cons, this]

theorem reverse_dropWhile_ws_of_lastNotWS (l : List Char) (h : LastNotWS l) :
    (l.reverse.dropWhile Char.isWhitespace).reverse = l := by
  cases hr : l.reverse with
  | nil =>
    have : l = [] := by simpa using congrArg List.reverse hr
    simp [this]
  | cons c cs =>
    have hc : l.getLast? = some c := by
      rw [List.getLast?_eq_head?_reverse, hr]; rfl
    have := h c hc
    rw [List.dropWhile_cons, this]
    simpa using (congrArg List.reverse hr).symm

theorem trimData_eq_self_of (l : List Char) (h1 : HeadNotWS l) (h2 : LastNotWS l) :
    trimData l = l := by
  unfold trimData
  rw [dropWhile_ws_of_headNotWS l h1, reverse_dropWhile_ws_of_lastNotWS l h2]

theorem length_dropWhile_le' {α : Type} (p : α → Bool) (l : List α) :
    (l.dropWhile p).length ≤ l.length :=
  (List.dropWhile_suffix p).sublist.length_le

theorem head?_dropWhile_not {α : Type} (p : α → Bool) (l : List α) :
    ∀ c, (l.dropWhile p).head? = some c → p c = false := by
  intro c hc
  cases hd : l.dropWhile p with
  | nil => rw [hd] at hc; simp at hc
  | cons a as =>
    rw [hd] at hc
    simp at hc
    have hne : l.dropWhile p ≠ [] := by rw [hd]; simp
    have := List.head_dropWhile_not p l hne
    subst hc
    simpa [hd] using this

theorem trimData_headNotWS (l : List Char) : HeadNotWS (trimData l) := by
  intro c hc
  unfold trimData at hc
  rw [List.head?_reverse] at hc
  have hBne : (l.dropWhile Char.isWhitespace).reverse.dropWhile Char.isWhitespace ≠ [] := by
    intro h0; rw [h0] at hc; simp at hc
  rcases List.dropWhile_suffix (l := (l.dropWhile Char.isWhitespace).reverse)
      Char.isWhitespace with ⟨pre, hpre⟩
  have hc' : (l.dropWhile Char.isWhitespace).reverse.getLast? = some c := by
    rw [← hpre, getLast?_append_ne_nil pre _ hBne]; exact hc
  rw [List.getLast?_reverse] at hc'
  exact head?_dropWhile_not _ _ c hc'

theorem trimData_lastNotWS (l : List Char) : LastNotWS (trimData l) := by
  intro c hc
  unfold trimData at hc
  rw [List.getLast?_reverse] at hc
  exact head?_dropWhile_not _ _ c hc

theorem trimData_idem (l : List Char) : trimData (trimData l) = trimData l :=
  trimData_eq_self_of _ (trimData_headNotWS l) (trimData_lastNotWS l)

theorem jsTrim_idem (s : String) : jsTrim (jsTrim s) = jsTrim s := by
  unfold jsTrim
  rw [show (String.mk (trimData s.data)).data = trimData s.data from rfl, trimData_idem]

/-! ## Lemmas about the `-->` separator -/

theorem containsArrow_iff (l : List Char) :
    containsArrow l = true ↔ ∃ a b, l = a ++ arrowToken ++ b := by
  induction l with
  | nil => simp [containsArrow, arrowToken]
  | cons c cs ih =>
    rw [containsArrow, Bool.or_eq_true]
    constructor
    · rintro (h | h)
      · rcases List.isPrefixOf_iff_prefix.mp h with ⟨rest, hrest⟩
        exact ⟨[], rest, by simp [hrest.symm]⟩
      · rcases ih.mp h with ⟨a, b, rfl⟩
        exact ⟨c :: a, b, by simp⟩
    · rintro ⟨a, b, hab⟩
      cases a with
      | nil =>
        left
        rw [List.isPrefixOf_iff_prefix]
        exact ⟨b, by simpa using hab.symm⟩
      | cons x a' =>
        right
        apply ih.mpr
        refine ⟨a', b, ?_⟩
        have hx : c :: cs = x :: (a' ++ arrowToken ++ b) := by simpa using hab
        exact (List.cons_eq_cons.mp hx).2

theorem containsArrow_of_inside {l₁ l₂ : List Char} (h : l₁ <:+: l₂)
    (hc : containsArrow l₁ = true) : containsArrow l₂ = true := by
  rcases (containsArrow_iff l₁).mp hc with ⟨a, b, rfl⟩
  rcases h with ⟨pre, suf, rfl⟩
  exact (containsArrow_iff _).mpr ⟨pre ++ a, b ++ suf, by simp⟩

theorem noArrow_of_inside {l₁ l₂ : List Char} (h : l₁ <:+: l₂)
    (hc : containsArrow l₂ = false) : containsArrow l₁ = false := by
  cases h1 : containsArrow l₁ with
  | false => rfl
  | true => rw [containsArrow_of_inside h h1] at hc; cases hc

theorem noArrow_of_no_gt (t : List Char) (h : ∀ c ∈ t, c ≠ '>') :
    containsArrow t = false := by
  cases hc : containsArrow t with
  | false => rfl
  | true =>
    rcases (containsArrow_iff t).mp hc with ⟨a, b, rfl⟩
    exact absurd rfl (h '>' (by simp [arrowToken]))

theorem arrow_isPrefixOf_iff (l : List Char) :
    arrowToken.isPrefixOf l = true ↔ ∃ rest, l = '-' :: '-' :: '>' :: rest := by
  rw [List.isPrefixOf_iff_prefix]
  constructor
  · rintro ⟨rest, hrest⟩
    exact ⟨rest, by simpa [arrowToken] using hrest.symm⟩
  · rintro ⟨rest, rfl⟩
    exact ⟨rest, by simp [arrowToken]⟩

theorem noArrow_append_no_gt (s t : List Char) (hs : containsArrow s = false)
    (ht : ∀ c ∈ t, c ≠ '>') : containsArrow (s ++ t) = false := by
  induction s with
  | nil => exact noArrow_of_no_gt t ht
  | cons c cs ih =>
    rw [containsArrow, Bool.or_eq_false_iff] at hs
    obtain ⟨h1, h2⟩ := hs
    rw [List.cons_append, containsArrow, Bool.or_eq_false_iff]
    refine ⟨?_, ih h2⟩
    cases hp : arrowToken.isPrefixOf (c :: (cs ++ t)) with
    | false => rfl
    | true =>
      exfalso
      obtain ⟨rest, hr⟩ := (arrow_isPrefixOf_iff _).mp hp
      cases cs with
      | nil =>
        simp only [List.nil_append] at hr
        injection hr with hc ht'
        exact ht '>' (by simp [ht']) rfl
      | cons c1 cs' =>
        simp only [List.cons_append] at hr
        injection hr with hc hr
        injection hr with hc1 hr
        cases cs' with
        | nil =>
          simp only [List.nil_append] at hr
          exact ht '>' (by simp [hr]) rfl
        | cons c2 cs'' =>
          simp only [List.cons_append] at hr
          injection hr with hc2 hr
          subst hc
          subst hc1
          subst hc2
          have : arrowToken.isPrefixOf ('-' :: '-' :: '>' :: cs'') = true :=
            (arrow_isPrefixOf_iff _).mpr ⟨cs'', rfl⟩
          rw [this] at h1
          cases h1

theorem arrowDecomp (l : List Char) :
    containsArrow l = false ∨
      ∃ a b, l = a ++ arrowToken ++ b ∧ containsArrow (a ++ ['-', '-']) = false := by
  induction l with
  | nil => left; rfl
  | cons c cs ih =>
    cases hp : arrowToken.isPrefixOf (c :: cs) with
    | true =>
      right
      obtain ⟨rest, hr⟩ := (arrow_isPrefixOf_iff _).mp hp
      exact ⟨[], rest, by simpa [arrowToken] using hr, by decide⟩
    | false =>
      rcases ih with h | ⟨a, b, rfl, hfree⟩
      · left
        rw [containsArrow, hp, h]
        rfl
      · right
        refine ⟨c :: a, b, by simp, ?_⟩
        rw [List.cons_append, containsArrow, Bool.or_eq_false_iff]
        refine ⟨?_, hfree⟩
        cases hq : arrowToken.isPrefixOf (c :: (a ++ ['-', '-'])) with
        | false => rfl
        | true =>
          exfalso
          obtain ⟨rest, hr⟩ := (arrow_isPrefixOf_iff _).mp hq
          cases a with
          | nil => simp at hr
          | cons a0 a' =>
            simp only [List.cons_append] at hr
            injection hr with hc hr
            injection hr with ha0 hr
            cases a' with
            | nil => simp at hr
            | cons a1 as2 =>
              simp only [List.cons_append] at hr
              injection hr with ha1 hr
              subst hc
              subst ha0
              subst ha1
              simp only [List.cons_append, List.append_assoc] at hp
              rw [(arrow_isPrefixOf_iff _).mpr ⟨as2 ++ (arrowToken ++ b), rfl⟩] at hp
              cases hp

theorem splitArrowAux_no_arrow (l : List Char) (h : containsArrow l = false) :
    ∀ acc, splitArrowAux l acc = [acc.reverse ++ l] := by
  induction l with
  | nil => intro acc; simp [splitArrowAux]
  | cons c cs ih =>
    intro acc
    rw [containsArrow, Bool.or_eq_false_iff] at h
    rw [splitArrowAux]
    simp only [h.1, if_false]
    rw [ih h.2 (c :: acc)]
    simp

/-- Splitting at the first occurrence of the separator. -/
theorem splitArrowAux_arrow (a : List Char) : ∀ b acc,
    containsArrow (a ++ ['-', '-']) = false →
    splitArrowAux (a ++ arrowToken ++ b) acc = (acc.reverse ++ a) :: splitArrowAux b [] := by
  induction a with
  | nil =>
    intro b acc _
    have hp : arrowToken.isPrefixOf ('-' :: ('-' :: '>' :: b)) = true :=
      (arrow_isPrefixOf_iff _).mpr ⟨b, rfl⟩
    simp only [List.nil_append, arrowToken, List.cons_append]
    rw [splitArrowAux]
    simp only [hp, if_true]
    simp
  | cons x a' ih =>
    intro b acc hfree
    rw [List.cons_append, containsArrow, Bool.or_eq_false_iff] at hfree
    obtain ⟨h1, h2⟩ := hfree
    have hx : arrowToken.isPrefixOf (x :: (a' ++ arrowToken ++ b)) = false := by
      cases hq : arrowToken.isPrefixOf (x :: (a' ++ arrowToken ++ b)) with
      | false => rfl
      | true =>
        exfalso
        obtain ⟨rest, hr⟩ := (arrow_isPrefixOf_iff _).mp hq
        cases a' with
        | nil =>
          simp only [List.nil_append, arrowToken, List.cons_append] at hr
          injection hr with hx0 hr
          injection hr with hx1 hr
          injection hr with hx2 hr
          cases hx2
        | cons a0 as2 =>
          cases as2 with
          | nil =>
            simp only [List.singleton_append, arrowToken, List.cons_append,
              List.nil_append] at hr
            injection hr with hx0 hr
            injection hr with hx1 hr
            injection hr with hx2 hr
            cases hx2
          | cons a1 as3 =>
            simp only [List.cons_append, List.append_assoc] at hr
            injection hr with hx0 hr
            injection hr with hx1 hr
            injection hr with hx2 hr
            subst hx0
            subst hx1
            subst hx2
            rw [(arrow_isPrefixOf_iff _).mpr ⟨as3 ++ ['-', '-'], by simp⟩] at h1
            cases h1
    rw [List.cons_append, List.cons_append, splitArrowAux]
    simp only [hx, Bool.false_eq_true, if_false]
    rw [ih b (x :: acc) h2]
    simp

theorem splitArrowAux_acc_shape (l : List Char) :
    ∃ p ps, ∀ acc, splitArrowAux l acc = (acc.reverse ++ p) :: ps := by
  induction l with
  | nil => exact ⟨[], [], fun acc => by simp [splitArrowAux]⟩
  | cons c cs ih =>
    cases hp : arrowToken.isPrefixOf (c :: cs) with
    | true =>
      refine ⟨[], splitArrowAux (cs.drop 2) [], fun acc => ?_⟩
      rw [splitArrowAux]
      simp [hp]
    | false =>
      obtain ⟨p, ps, hshape⟩ := ih
      refine ⟨c :: p, ps, fun acc => ?_⟩
      rw [splitArrowAux]
      simp only [hp, Bool.false_eq_true, if_false]
      rw [hshape (c :: acc)]
      simp

theorem splitArrowAux_ne_nil (l acc : List Char) : splitArrowAux l acc ≠ [] := by
  obtain ⟨p, ps, hshape⟩ := splitArrowAux_acc_shape l
  rw [hshape acc]
  simp

theorem two_le_splitArrowAux_length (l : List Char) (h : containsArrow l = true) :
    ∀ acc, 2 ≤ (splitArrowAux l acc).length := by
  induction l with
  | nil => simp [containsArrow] at h
  | cons c cs ih =>
    intro acc
    rw [containsArrow, Bool.or_eq_true] at h
    cases hp : arrowToken.isPrefixOf (c :: cs) with
    | true =>
      rw [splitArrowAux]
      simp only [hp, if_true]
      have hne := splitArrowAux_ne_nil (cs.drop 2) []
      cases hx : splitArrowAux (cs.drop 2) [] with
      | nil => exact absurd hx hne
      | cons q qs => simp [hx]
    | false =>
      rcases h with h | h
      · rw [hp] at h; cases h
      · rw [splitArrowAux]
        simp only [hp, Bool.false_eq_true, if_false]
        exact ih h (c :: acc)

/-- Every piece produced by the separator split is an infix of the input and is
itself free of the separator. -/
theorem splitArrow_pieces : ∀ (n : Nat) (l : List Char), l.length ≤ n →
    ∀ p ∈ splitArrowAux l [], containsArrow p = false ∧ p <:+: l := by
  intro n
  induction n with
  | zero =>
    intro l hl p hp
    have : l = [] := List.length_eq_zero.mp (Nat.le_zero.mp hl)
    subst this
    simp only [splitArrowAux, List.reverse_nil, List.mem_singleton] at hp
    subst hp
    exact ⟨rfl, List.nil_infix⟩
  | succ n ih =>
    intro l hl p hp
    rcases arrowDecomp l with h | ⟨a, b, rfl, hfree⟩
    · rw [splitArrowAux_no_arrow l h []] at hp
      simp only [List.reverse_nil, List.nil_append, List.mem_singleton] at hp
      subst hp
      exact ⟨h, List.infix_refl _⟩
    · rw [splitArrowAux_arrow a b [] hfree] at hp
      simp only [List.reverse_nil, List.nil_append, List.mem_cons] at hp
      rcases hp with rfl | hp
      · refine ⟨?_, ⟨[], arrowToken ++ b, by simp⟩⟩
        exact noArrow_of_inside ⟨[], ['-', '-'], by simp⟩ hfree
      · have hb : b.length ≤ n := by
          have := List.length_append (a ++ arrowToken) b
          simp [arrowToken] at hl ⊢
          omega
        obtain ⟨hfree', hinf⟩ := ih b hb p hp
        exact ⟨hfree', hinf.trans ⟨a ++ arrowToken, [], by simp⟩⟩

/-! ## Grouping: coverage and boundary characterisation -/

theorem groupLoop_flatten (rest : List VTTCue) : ∀ (prev : VTTCue) (g : List VTTCue),
    g ≠ [] → ((groupLoop prev rest g).map VTTGroup.cues).flatten = g ++ rest := by
  induction rest with
  | nil =>
    intro prev g hg
    rw [groupLoop]
    simp [List.length_pos.mpr hg]
  | cons next rest ih =>
    intro prev g hg
    rw [groupLoop]
    by_cases hb : (sentenceEndingsTest (jsTrim (prev.textLines.getLastD "")) &&
        sentenceStartersTest (jsTrim (next.textLines.headD ""))) = true
    · simp only [hb, if_true, List.map_cons, List.flatten_cons]
      rw [ih next [next] (by simp)]
      simp
    · simp only [hb, Bool.false_eq_true, if_false]
      rw [ih next (g ++ [next]) (by simp)]
      simp

theorem groupLoop_map_cues (rest : List VTTCue) : ∀ (prev : VTTCue) (g : List VTTCue),
    g ≠ [] → (groupLoop prev rest g).map VTTGroup.cues = chunkLoop codeBoundary prev rest g := by
  induction rest with
  | nil =>
    intro prev g hg
    rw [groupLoop, chunkLoop]
    simp [List.length_pos.mpr hg]
  | cons next rest ih =>
    intro prev g hg
    rw [groupLoop, chunkLoop]
    by_cases hb : (sentenceEndingsTest (jsTrim (prev.textLines.getLastD "")) &&
        sentenceStartersTest (jsTrim (next.textLines.headD ""))) = true
    · have hcb : codeBoundary prev next = true := hb
      simp only [hb, hcb, if_true, List.map_cons]
      rw [ih next [next] (by simp)]
    · have hcb : codeBoundary prev next = false := by
        rw [Bool.not_eq_true] at hb; exact hb
      rw [Bool.not_eq_true] at hb
      simp only [hb, hcb, Bool.false_eq_true, if_false]
      exact ih next (g ++ [next]) (by simp)

/-- C6: concatenating the cues of all groups returned by the grouper, in group
order, reproduces exactly the input cue sequence — no cue omitted, duplicated,
or reordered, every cue in exactly one group, each group a contiguous run. -/
theorem c6_group_coverage (cues : List VTTCue) :
    ((groupCuesIntoSentences cues).map VTTGroup.cues).flatten = cues := by
  cases cues with
  | nil => rfl
  | cons c cs =>
    rw [groupCuesIntoSentences]
    simpa using groupLoop_flatten cs c [c] (by simp)

/-- C4 counterexample: on the two concrete cues `cueEllipsis` (line ends with
a real ellipsis `…`) and `cueCurlyQuote` (line starts with a curly `“`), the
claim's boundary classes close the group between them, but the code's regex
classes (which contain the mojibake characters `â€¦` instead of `…`, and only
straight quotes) do not, so the grouping differs from the claim's chunking. -/
theorem c4_counterexample :
    ¬ (([cueEllipsis, cueCurlyQuote] : List VTTCue) ≠ [] →
        (groupCuesIntoSentences [cueEllipsis, cueCurlyQuote]).map VTTGroup.cues =
          chunksBy claimBoundary [cueEllipsis, cueCurlyQuote]) := by
  decide

/-- C4 (amended): for every non-empty cue sequence, the grouper closes the open
group between an adjacent pair exactly when the previous cue's trimmed last
line ends in one or more characters of the class `.` `!` `?` `â` `€` `¦`
(the literal characters of the source regex) and the next cue's trimmed first
line begins with an ASCII uppercase letter, a hyphen, or a straight double or
single quote; otherwise the next cue joins the open group. -/
theorem c4_boundary_characterisation (cs : List VTTCue) (h : cs ≠ []) :
    (groupCuesIntoSentences cs).map VTTGroup.cues = chunksBy codeBoundary cs := by
  cases cs with
  | nil => cases h rfl
  | cons c cs' =>
    rw [groupCuesIntoSentences, chunksBy]
    exact groupLoop_map_cues cs' c [c] (by simp)

/-- Witness for `c4_boundary_characterisation` at a concrete input. -/
theorem c4_boundary_characterisation_witness :
    (groupCuesIntoSentences [cueEllipsis, cueCurlyQuote]).map VTTGroup.cues =
      chunksBy codeBoundary [cueEllipsis, cueCurlyQuote] :=
  c4_boundary_characterisation [cueEllipsis, cueCurlyQuote] (by decide)

/-! ## The longest-line scan -/

theorem maxLen_cons (l : String) (ls : List String) :
    maxLen (l :: ls) = max l.length (maxLen ls) := rfl

theorem length_le_maxLen (ls : List String) : ∀ l ∈ ls, l.length ≤ maxLen ls := by
  induction ls with
  | nil => intro l hl; cases hl
  | cons x xs ih =>
    intro l hl
    rw [maxLen_cons]
    rcases List.mem_cons.mp hl with rfl | hl
    · exact Nat.le_max_left _ _
    · exact Nat.le_trans (ih l hl) (Nat.le_max_right _ _)

theorem maxLen_mem (ls : List String) (h : ls ≠ []) :
    ∃ l ∈ ls, l.length = maxLen ls := by
  induction ls with
  | nil => cases h rfl
  | cons x xs ih =>
    rw [maxLen_cons]
    by_cases hx : maxLen xs ≤ x.length
    · exact ⟨x, by simp, by omega⟩
    · have hxs : xs ≠ [] := by
        intro h0
        subst h0
        simp [maxLen] at hx
      obtain ⟨l, hl, hlen⟩ := ih hxs
      exact ⟨l, by simp [hl], by omega⟩

theorem findLongestAux_spec (ls : List String) : ∀ (i b L : Nat),
    findLongestAux ls i b L =
      if L < maxLen ls then i + ls.findIdx (fun l => l.length = maxLen ls) else b := by
  induction ls with
  | nil =>
    intro i b L
    simp [findLongestAux, maxLen]
  | cons x xs ih =>
    intro i b L
    rw [findLongestAux, maxLen_cons, List.findIdx_cons]
    by_cases hx : x.length > L
    · rw [if_pos hx, ih (i + 1) i x.length]
      by_cases hgt : x.length < maxLen xs
      · have hmax : max x.length (maxLen xs) = maxLen xs := by omega
        simp only [hmax]
        have hc : decide (x.length = maxLen xs) = false := by
          simp only [decide_eq_false_iff_not]
          omega
        rw [if_pos hgt, if_pos (show L < maxLen xs by omega)]
        simp only [hc, cond_false]
        omega
      · have hmax : max x.length (maxLen xs) = x.length := by omega
        simp only [hmax]
        rw [if_neg hgt, if_pos hx]
        simp
    · rw [if_neg hx, ih (i + 1) b L]
      by_cases hL : L < maxLen xs
      · have hmax : max x.length (maxLen xs) = maxLen xs := by omega
        simp only [hmax]
        have hc : decide (x.length = maxLen xs) = false := by
          simp only [decide_eq_false_iff_not]
          omega
        rw [if_pos hL, if_pos hL]
        simp only [hc, cond_false]
        omega
      · have hmax : ¬ (L < max x.length (maxLen xs)) := by omega
        rw [if_neg hL, if_neg hmax]

theorem findLongestIndex_spec (ls : List String) :
    findLongestIndex ls = claimLongestIndex ls := by
  rw [findLongestIndex, claimLongestIndex, findLongestAux_spec ls 0 0 0]
  by_cases h : 0 < maxLen ls
  · rw [if_pos h]
    simp
  · rw [if_neg h]
    cases ls with
    | nil => simp
    | cons x xs =>
      have hx : x.length = 0 := by
        have := length_le_maxLen (x :: xs) x (by simp)
        omega
      rw [List.findIdx_cons]
      have hc : decide (x.length = maxLen (x :: xs)) = true := by
        simp only [decide_eq_true_eq]
        have := length_le_maxLen (x :: xs) x (by simp)
        omega
      simp only [hc, cond_true]

theorem findLongestIndex_lt (ls : List String) (h : ls ≠ []) :
    findLongestIndex ls < ls.length := by
  rw [findLongestIndex_spec, claimLongestIndex]
  rw [List.findIdx_lt_length]
  obtain ⟨l, hl, hlen⟩ := maxLen_mem ls h
  exact ⟨l, hl, by simp [hlen]⟩

theorem spliceSplit_length (ls : List String) (i : Nat) (a b : String) (h : i < ls.length) :
    (spliceSplit ls i a b).length = ls.length + 1 := by
  simp only [spliceSplit, List.length_append, List.length_take, List.length_drop,
    List.length_cons, List.length_nil]
  omega

/-! ## The under-fill loop -/

theorem underfillGo_succ (gas totalLines : Nat) (ls : List String) :
    underfillGo (gas + 1) totalLines ls =
      if ls.length < totalLines ∧ 0 < ls.length then
        (let words := splitChar ' ' (ls.getD (findLongestIndex ls) "")
         if words.length > 1 then
           underfillGo gas totalLines (spliceSplit ls (findLongestIndex ls)
             (jsJoin " " (words.take ((words.length + 1) / 2)))
             (jsJoin " " (words.drop ((words.length + 1) / 2))))
         else ls)
      else ls := rfl

theorem underfillLoop_step (totalLines : Nat) (ls : List String)
    (hlt : ls.length < totalLines) (hpos : 0 < ls.length) :
    underfillLoop totalLines ls =
      (let words := splitChar ' ' (ls.getD (findLongestIndex ls) "")
       if words.length > 1 then
         underfillLoop totalLines (spliceSplit ls (findLongestIndex ls)
           (jsJoin " " (words.take ((words.length + 1) / 2)))
           (jsJoin " " (words.drop ((words.length + 1) / 2))))
       else ls) := by
  obtain ⟨k, hk⟩ : ∃ k, totalLines - ls.length = k + 1 :=
    ⟨totalLines - ls.length - 1, by omega⟩
  rw [underfillLoop, hk, underfillGo_succ, if_pos ⟨hlt, hpos⟩]
  simp only []
  by_cases hw : (splitChar ' ' (ls.getD (findLongestIndex ls) "")).length > 1
  · rw [if_pos hw, if_pos hw]
    have hne : ls ≠ [] := by
      intro h0
      rw [h0] at hpos
      simp at hpos
    conv_rhs => rw [underfillLoop]
    rw [spliceSplit_length ls _ _ _ (findLongestIndex_lt ls hne)]
    congr 1
    omega
  · rw [if_neg hw, if_neg hw]

/-- C2: the under-fill phase repeatedly replaces the currently longest line
(first occurrence on equal length), provided it has at least two
space-separated words, by its first `ceil(wordCount/2)` words and its remaining
words re-joined with single spaces, in place; a one-word longest line stops the
loop early.  And concretely, for a group with `slotCount = 2` and
`translatedText = "one two three four"`, the resulting lines are
`"one two"` and `"three four"`. -/
theorem c2_underfill_split :
    (∀ (totalLines : Nat) (ls : List String), ls.length < totalLines → 0 < ls.length →
      underfillLoop totalLines ls =
        match claimSplitStep ls with
        | some ls' => underfillLoop totalLines ls'
        | none => ls) ∧
    (redistributeTranslation exampleGroup2 "one two three four").map VTTCue.textLines =
      [["one two", "three four"]] := by
  constructor
  · intro totalLines ls hlt hpos
    rw [underfillLoop_step totalLines ls hlt hpos]
    simp only [claimSplitStep, ← findLongestIndex_spec]
    by_cases hw : (splitChar ' ' (ls.getD (findLongestIndex ls) "")).length > 1
    · rw [if_pos hw, if_pos (by omega :
        2 ≤ (splitChar ' ' (ls.getD (findLongestIndex ls) "")).length)]
      rfl
    · rw [if_neg hw, if_neg (by omega :
        ¬ 2 ≤ (splitChar ' ' (ls.getD (findLongestIndex ls) "")).length)]
  · decide

/-- Witness for the universally quantified part of `c2_underfill_split`. -/
theorem c2_underfill_split_witness :
    underfillLoop 2 ["one two three four"] =
      match claimSplitStep ["one two three four"] with
      | some ls' => underfillLoop 2 ls'
      | none => ["one two three four"] :=
  c2_underfill_split.1 2 ["one two three four"] (by decide) (by decide)

/-! ## Refill and over-fill -/

theorem totalLinesOf_shift (cues : List VTTCue) : ∀ (a : Nat),
    cues.foldl (fun sum cue => sum + cue.textLines.length) a =
      a + cues.foldl (fun sum cue => sum + cue.textLines.length) 0 := by
  induction cues with
  | nil => intro a; simp
  | cons c cs ih =>
    intro a
    rw [List.foldl_cons, List.foldl_cons, ih (a + c.textLines.length),
      ih (0 + c.textLines.length)]
    omega

theorem totalLinesOf_cons (c : VTTCue) (cs : List VTTCue) :
    totalLinesOf (c :: cs) = c.textLines.length + totalLinesOf cs := by
  rw [totalLinesOf, List.foldl_cons, totalLinesOf_shift]
  rw [totalLinesOf]
  omega

theorem getD_range_take (ls : List String) : ∀ (k : Nat), k ≤ ls.length →
    (List.range k).map (fun i => ls.getD i "") = ls.take k := by
  intro k
  induction k with
  | zero => intro _; simp
  | succ k ih =>
    intro hk
    rw [List.range_succ, List.map_append, ih (by omega), List.take_succ]
    simp only [List.map_cons, List.map_nil]
    congr 1
    have hklt : k < ls.length := by omega
    rw [List.getD_eq_getElem?_getD, List.getElem?_eq_getElem hklt]
    simp

theorem splitTranslatedText_trimmedNE (t : String) :
    ∀ l ∈ splitTranslatedText t, TrimmedNE l := by
  intro l hl
  rw [splitTranslatedText] at hl
  obtain ⟨hmem, hlen⟩ := List.mem_filter.mp hl
  obtain ⟨x, -, rfl⟩ := List.mem_map.mp hmem
  refine ⟨jsTrim_idem x, ?_⟩
  intro h0
  rw [h0] at hlen
  simp at hlen

theorem headNotWS_of_trimData_eq_self (l : List Char) (h : trimData l = l) :
    HeadNotWS l := by
  intro c hc
  rw [← h] at hc
  exact trimData_headNotWS l c hc

theorem lastNotWS_of_trimData_eq_self (l : List Char) (h : trimData l = l) :
    LastNotWS l := by
  intro c hc
  rw [← h] at hc
  exact trimData_lastNotWS l c hc

theorem trimmedNE_head_last (s : String) (h : TrimmedNE s) :
    HeadNotWS s.data ∧ LastNotWS s.data := by
  obtain ⟨ht, _⟩ := h
  have hdata : trimData s.data = s.data := congrArg String.data ht
  exact ⟨headNotWS_of_trimData_eq_self _ hdata, lastNotWS_of_trimData_eq_self _ hdata⟩

theorem string_ne_empty_iff_data (s : String) : s ≠ "" ↔ s.data ≠ [] := by
  constructor
  · intro h hdata
    exact h (congrArg String.mk hdata)
  · intro h hs
    exact h (congrArg String.data hs)

theorem jsJoin_space_trimmedNE (ls : List String) : ls ≠ [] →
    (∀ l ∈ ls, TrimmedNE l) → TrimmedNE (jsJoin " " ls) := by
  induction ls with
  | nil => intro hne; cases hne rfl
  | cons x xs ih =>
    intro _ h
    cases xs with
    | nil => exact h x (by simp)
    | cons y ys =>
      have hx := h x (by simp)
      have hrest := ih (by simp) (fun l hl => h l (List.mem_cons_of_mem x hl))
      have hdata : (jsJoin " " (x :: y :: ys)).data =
          x.data ++ ' ' :: (jsJoin " " (y :: ys)).data := by
        rw [show jsJoin " " (x :: y :: ys) = x ++ " " ++ jsJoin " " (y :: ys) from rfl]
        simp [String.data_append]
      have hxne : x.data ≠ [] := (string_ne_empty_iff_data x).mp hx.2
      have hrne : (jsJoin " " (y :: ys)).data ≠ [] :=
        (string_ne_empty_iff_data _).mp hrest.2
      constructor
      · rw [jsTrim]
        rw [show (jsJoin " " (x :: y :: ys)).data =
          x.data ++ ' ' :: (jsJoin " " (y :: ys)).data from hdata]
        have htrim : trimData (x.data ++ ' ' :: (jsJoin " " (y :: ys)).data) =
            x.data ++ ' ' :: (jsJoin " " (y :: ys)).data := by
          apply trimData_eq_self_of
          · intro c hc
            cases hxd : x.data with
            | nil => exact absurd hxd hxne
            | cons a as =>
              rw [hxd] at hc
              simp only [List.cons_append, List.head?_cons, Option.some.injEq] at hc
              subst hc
              exact (trimmedNE_head_last x hx).1 a (by rw [hxd]; rfl)
          · intro c hc
            rw [getLast?_append_ne_nil x.data _ (by simp)] at hc
            rw [← List.singleton_append] at hc
            rw [getLast?_append_ne_nil [' '] _ hrne] at hc
            exact (trimmedNE_head_last _ hrest).2 c hc
        rw [htrim, ← hdata]
      · rw [string_ne_empty_iff_data, hdata]
        simp [hxne]

theorem refillCues_flatten (cues : List VTTCue) : ∀ (ls : List String),
    ls.length = totalLinesOf cues → (∀ l ∈ ls, TrimmedNE l) →
    ((refillCues cues ls).map VTTCue.textLines).flatten = ls := by
  induction cues with
  | nil =>
    intro ls hlen _
    have hnil : ls = [] := by
      rw [totalLinesOf] at hlen
      simp at hlen
      exact hlen
    subst hnil
    rfl
  | cons cue rest ih =>
    intro ls hlen htrim
    rw [totalLinesOf_cons] at hlen
    rw [refillCues]
    simp only [List.map_cons, List.flatten_cons]
    have hk : cue.textLines.length ≤ ls.length := by omega
    rw [getD_range_take ls cue.textLines.length hk]
    have hfilter : (ls.take cue.textLines.length).filter
        (fun line => decide ((jsTrim line).length > 0)) = ls.take cue.textLines.length := by
      rw [List.filter_eq_self]
      intro a ha
      have hta := htrim a (List.mem_of_mem_take ha)
      rw [hta.1]
      simp only [decide_eq_true_eq]
      have : a.data ≠ [] := (string_ne_empty_iff_data a).mp hta.2
      have : a.data.length ≠ 0 := fun h0 => this (List.length_eq_zero.mp h0)
      have hlen' : a.length = a.data.length := rfl
      omega
    rw [hfilter]
    rw [ih (ls.drop cue.textLines.length) (by simp; omega)
      (fun l hl => htrim l (List.mem_of_mem_drop hl))]
    exact List.take_append_drop _ ls

theorem refillCues_preserves (cues : List VTTCue) : ∀ (ls : List String),
    (refillCues cues ls).map (fun c => (c.startTime, c.endTime, c.originalIndex)) =
      cues.map (fun c => (c.startTime, c.endTime, c.originalIndex)) := by
  induction cues with
  | nil => intro ls; rfl
  | cons cue rest ih =>
    intro ls
    rw [refillCues]
    simp only [List.map_cons]
    rw [ih (ls.drop cue.textLines.length)]

/-- C3: when the translated lines outnumber the slot count (and at least one
slot exists), the first `slotCount - 1` lines are kept unchanged and every
remaining line — including what would have been the `slotCount`-th — is joined
with single spaces into one final line in the last slot.  Concretely, for
`slotCount = 2` and `translatedText = "A\nB\nC"` the resulting lines are
`"A"` and `"B C"`. -/
theorem c3_overfill_merge :
    (∀ (g : VTTGroup) (t : String),
      1 ≤ totalLinesOf g.cues →
      totalLinesOf g.cues < (splitTranslatedText t).length →
      ((redistributeTranslation g t).map VTTCue.textLines).flatten =
        (splitTranslatedText t).take (totalLinesOf g.cues - 1) ++
          [jsJoin " " ((splitTranslatedText t).drop (totalLinesOf g.cues - 1))]) ∧
    (redistributeTranslation exampleGroup2 "A\nB\nC").map VTTCue.textLines =
      [["A", "B C"]] := by
  constructor
  · intro g t h1 hlen
    have hunder : underfillLoop (totalLinesOf g.cues) (splitTranslatedText t) =
        splitTranslatedText t := by
      rw [underfillLoop, show totalLinesOf g.cues - (splitTranslatedText t).length = 0 by
        omega, underfillGo]
    have hover : overfillAdjust (totalLinesOf g.cues)
        (underfillLoop (totalLinesOf g.cues) (splitTranslatedText t)) =
        (splitTranslatedText t).take (totalLinesOf g.cues - 1) ++
          [jsJoin " " ((splitTranslatedText t).drop (totalLinesOf g.cues - 1))] := by
      rw [hunder, overfillAdjust, if_pos (by omega), if_neg (by omega)]
    rw [redistributeTranslation]
    rw [hover]
    apply refillCues_flatten
    · simp only [List.length_append, List.length_take, List.length_cons, List.length_nil]
      omega
    · intro l hl
      rcases List.mem_append.mp hl with hl | hl
      · exact splitTranslatedText_trimmedNE t l (List.mem_of_mem_take hl)
      · rw [List.mem_singleton] at hl
        subst hl
        apply jsJoin_space_trimmedNE
        · intro h0
          have := congrArg List.length h0
          simp at this
          omega
        · intro x hx
          exact splitTranslatedText_trimmedNE t x (List.mem_of_mem_drop hx)
  · decide

/-- Witness for the universally quantified part of `c3_overfill_merge`. -/
theorem c3_overfill_merge_witness :
    ((redistributeTranslation exampleGroup2 "A\nB\nC").map VTTCue.textLines).flatten =
      (splitTranslatedText "A\nB\nC").take (totalLinesOf exampleGroup2.cues - 1) ++
        [jsJoin " " ((splitTranslatedText "A\nB\nC").drop (totalLinesOf exampleGroup2.cues - 1))] :=
  c3_overfill_merge.1 exampleGroup2 "A\nB\nC" (by decide) (by decide)

/-- C5: for every group and non-empty translated text, redistribution returns
exactly one output cue per input cue, in order, and each output cue's
`startTime`, `endTime` and `originalIndex` equal the corresponding input
cue's — only `textLines` is replaced. -/
theorem c5_slot_conservation (g : VTTGroup) (t : String) (_h : t ≠ "") :
    (redistributeTranslation g t).map (fun c => (c.startTime, c.endTime, c.originalIndex)) =
      g.cues.map (fun c => (c.startTime, c.endTime, c.originalIndex)) := by
  rw [redistributeTranslation]
  exact refillCues_preserves g.cues _

/-- Witness for `c5_slot_conservation` at a concrete input. -/
theorem c5_slot_conservation_witness :
    (redistributeTranslation exampleGroup2 "hola mundo").map
        (fun c => (c.startTime, c.endTime, c.originalIndex)) =
      exampleGroup2.cues.map (fun c => (c.startTime, c.endTime, c.originalIndex)) :=
  c5_slot_conservation exampleGroup2 "hola mundo" (by decide)

/-! ## Exhaustion analysis of the under-fill loop (C8) and termination (C10) -/

theorem underfillGo_ne_nil (gas : Nat) : ∀ (totalLines : Nat) (ls : List String),
    ls ≠ [] → underfillGo gas totalLines ls ≠ [] := by
  induction gas with
  | zero => intro totalLines ls hne; exact hne
  | succ gas ih =>
    intro totalLines ls hne
    rw [underfillGo_succ]
    by_cases hc : ls.length < totalLines ∧ 0 < ls.length
    · rw [if_pos hc]
      simp only []
      by_cases hw : (splitChar ' ' (ls.getD (findLongestIndex ls) "")).length > 1
      · rw [if_pos hw]
        apply ih
        intro h0
        have := congrArg List.length h0
        rw [spliceSplit_length ls _ _ _ (findLongestIndex_lt ls hne)] at this
        simp at this
      · rw [if_neg hw]; exact hne
    · rw [if_neg hc]; exact hne

theorem underfillGo_exit (gas : Nat) : ∀ (totalLines : Nat) (ls : List String),
    totalLines - ls.length ≤ gas →
    (underfillGo gas totalLines ls).length < totalLines →
    underfillGo gas totalLines ls = [] ∨
      EndedByOneWordBreak (underfillGo gas totalLines ls) := by
  induction gas with
  | zero =>
    intro totalLines ls hfuel hshort
    rw [underfillGo] at hshort ⊢
    left
    cases ls with
    | nil => rfl
    | cons x xs => simp at hfuel hshort; omega
  | succ gas ih =>
    intro totalLines ls hfuel hshort
    rw [underfillGo_succ] at hshort ⊢
    by_cases hc : ls.length < totalLines ∧ 0 < ls.length
    · rw [if_pos hc] at hshort ⊢
      simp only [] at hshort ⊢
      by_cases hw : (splitChar ' ' (ls.getD (findLongestIndex ls) "")).length > 1
      · rw [if_pos hw] at hshort ⊢
        apply ih
        · have hne : ls ≠ [] := by
            intro h0; rw [h0] at hc; simp at hc
          rw [spliceSplit_length ls _ _ _ (findLongestIndex_lt ls hne)]
          omega
        · exact hshort
      · rw [if_neg hw] at hshort ⊢
        right
        refine ⟨?_, ?_⟩
        · intro h0; rw [h0] at hc; simp at hc
        · have hpos : 0 < (splitChar ' ' (ls.getD (findLongestIndex ls) "")).length := by
            rw [splitChar]
            cases hx : splitCharAux ' ' (ls.getD (findLongestIndex ls) "").data [] with
            | nil => exact absurd hx (splitCharAux_ne_nil ' ' _ [])
            | cons a as => simp
          omega
    · rw [if_neg hc] at hshort ⊢
      left
      rcases hc' : ls with _ | ⟨x, xs⟩
      · rfl
      · exfalso
        rw [hc'] at hc hshort
        simp at hc hshort
        omega

/-- C8 counterexample: with the one-slot group `exampleGroup1` and the empty
translated text, the refill walk is exhausted immediately (the slot receives
the empty fallback), yet the under-fill loop never performed — let alone
failed — a split: it exited because the line list was empty, not via the
one-word `break`. -/
theorem c8_counterexample :
    ¬ ((∀ c ∈ exampleGroup1.cues, c.textLines ≠ []) →
        (finalTranslatedLines exampleGroup1 "").length < totalLinesOf exampleGroup1.cues →
        EndedByOneWordBreak (underfillResult exampleGroup1 "")) := by
  unfold EndedByOneWordBreak
  decide

/-- C8 (amended): for every group whose cues each have at least one text line
and every translated text, if the refill walk runs out of translated lines
(some slot receives the empty-string fallback), then either the translated
text had no non-empty lines at all (the under-fill loop never ran), or the
under-fill loop ended via its one-word `break` — its longest remaining line
(first on ties) has exactly one space-separated word. -/
theorem c8_exhaustion_source (g : VTTGroup) (t : String)
    (_hcues : ∀ c ∈ g.cues, c.textLines ≠ [])
    (hexh : (finalTranslatedLines g t).length < totalLinesOf g.cues) :
    splitTranslatedText t = [] ∨ EndedByOneWordBreak (underfillResult g t) := by
  have hshort : (underfillResult g t).length < totalLinesOf g.cues := by
    rw [finalTranslatedLines, overfillAdjust] at hexh
    by_cases hgt : (underfillResult g t).length > totalLinesOf g.cues
    · rw [if_pos hgt] at hexh
      by_cases h0 : totalLinesOf g.cues = 0
      · omega
      · rw [if_neg h0] at hexh
        simp only [List.length_append, List.length_take, List.length_cons,
          List.length_nil] at hexh
        omega
    · rw [if_neg hgt] at hexh
      exact hexh
  rcases underfillGo_exit (totalLinesOf g.cues - (splitTranslatedText t).length)
      (totalLinesOf g.cues) (splitTranslatedText t) (Nat.le_refl _) hshort with h | h
  · left
    by_contra hne
    exact underfillGo_ne_nil _ _ _ hne h
  · right
    exact h

/-- Witness for `c8_exhaustion_source` at a concrete input. -/
theorem c8_exhaustion_source_witness :
    splitTranslatedText "" = [] ∨ EndedByOneWordBreak (underfillResult exampleGroup1 "") :=
  c8_exhaustion_source exampleGroup1 "" (by decide) (by decide)

theorem underfillLoopWF_eq_loop (totalLines : Nat) : ∀ (n : Nat) (ls : List String),
    totalLines - ls.length ≤ n →
    underfillLoopWF totalLines ls = underfillLoop totalLines ls := by
  intro n
  induction n with
  | zero =>
    intro ls hn
    rw [underfillLoopWF, dif_neg (by omega : ¬ (ls.length < totalLines ∧ 0 < ls.length))]
    rw [underfillLoop, show totalLines - ls.length = 0 by omega, underfillGo]
  | succ n ih =>
    intro ls hn
    by_cases hC : ls.length < totalLines ∧ 0 < ls.length
    · have hne : ls ≠ [] := by
        intro h0
        rw [h0] at hC
        simp at hC
      rw [underfillLoopWF, dif_pos hC]
      simp only []
      by_cases hw : (splitChar ' ' (ls.getD (findLongestIndex ls) "")).length > 1
      · rw [if_pos hw]
        have hlen := spliceSplit_length ls (findLongestIndex ls)
          (jsJoin " " ((splitChar ' ' (ls.getD (findLongestIndex ls) "")).take
            (((splitChar ' ' (ls.getD (findLongestIndex ls) "")).length + 1) / 2)))
          (jsJoin " " ((splitChar ' ' (ls.getD (findLongestIndex ls) "")).drop
            (((splitChar ' ' (ls.getD (findLongestIndex ls) "")).length + 1) / 2)))
          (findLongestIndex_lt ls hne)
        rw [ih _ (by rw [hlen]; omega)]
        rw [underfillLoop_step totalLines ls hC.1 hC.2]
        simp only [hw, if_true]
      · rw [if_neg hw]
        rw [underfillLoop_step totalLines ls hC.1 hC.2]
        simp only [hw, if_false]
    · rw [underfillLoopWF, dif_neg hC]
      rw [underfillLoop]
      rcases Nat.lt_or_ge ls.length totalLines with hlt | hge
      · obtain ⟨k, hk⟩ : ∃ k, totalLines - ls.length = k + 1 :=
          ⟨totalLines - ls.length - 1, by omega⟩
        rw [hk, underfillGo_succ, if_neg hC]
      · rw [show totalLines - ls.length = 0 by omega, underfillGo]

/-- C10: the under-fill splitting loop terminates: it is definable as a total
function by well-founded recursion on `totalLines - translatedLines.length`
(`underfillLoopWF`), it agrees with the loop's execution (`underfillLoop`),
and each splicing step lengthens the line list by exactly one. -/
theorem c10_underfill_termination (totalLines : Nat) (ls : List String) :
    underfillLoopWF totalLines ls = underfillLoop totalLines ls ∧
      (ls ≠ [] → ∀ a b, (spliceSplit ls (findLongestIndex ls) a b).length = ls.length + 1) := by
  constructor
  · exact underfillLoopWF_eq_loop totalLines (totalLines - ls.length) ls (Nat.le_refl _)
  · intro hne a b
    exact spliceSplit_length ls _ a b (findLongestIndex_lt ls hne)

/-- Witness for `c10_underfill_termination`'s hypothesis-guarded part. -/
theorem c10_underfill_termination_witness :
    (spliceSplit ["one two"] (findLongestIndex ["one two"]) "one" "two").length =
      (["one two"] : List String).length + 1 :=
  (c10_underfill_termination 2 ["one two"]).2 (by decide) "one" "two"

/-! ## Totality (C7) and index monotonicity (C9) -/

theorem two_le_splitArrow_parts (line : String) (h : containsArrow line.data = true) :
    2 ≤ ((splitArrow line).map fun p => jsTrim (String.mk p)).length := by
  rw [List.length_map, splitArrow]
  exact two_le_splitArrowAux_length line.data h []

theorem parseLinesChecked_eq (lines : List String) : ∀ (cur : Option PartialCue)
    (acc : List VTTCue) (idx : Nat),
    parseLinesChecked lines cur acc idx = some (parseLines lines cur acc idx) := by
  induction lines with
  | nil =>
    intro cur acc idx
    cases cur with
    | none => rfl
    | some pc => rfl
  | cons raw rest ih =>
    intro cur acc idx
    simp only [parseLines, parseLinesChecked]
    by_cases h1 : jsTrim raw = "" ∨ jsTrim raw = "WEBVTT"
    · rw [if_pos h1, if_pos h1]
      exact ih cur acc idx
    · rw [if_neg h1, if_neg h1]
      by_cases h2 : containsArrow (jsTrim raw).data = true
      · rw [if_pos h2, if_pos h2]
        have hlen := two_le_splitArrow_parts (jsTrim raw) h2
        obtain ⟨p0, p1, rest', hp⟩ : ∃ p0 p1 r,
            ((splitArrow (jsTrim raw)).map fun p => jsTrim (String.mk p)) = p0 :: p1 :: r := by
          cases hx : (splitArrow (jsTrim raw)).map fun p => jsTrim (String.mk p) with
          | nil => rw [hx] at hlen; simp at hlen
          | cons a as =>
            cases as with
            | nil => rw [hx] at hlen; simp at hlen
            | cons b bs => exact ⟨a, b, bs, rfl⟩
        rw [hp]
        simp only [List.getElem?_cons_zero, List.getElem?_cons_succ, List.headD_cons,
          List.getD_cons_succ, List.getD_cons_zero]
        exact ih _ _ _
      · rw [if_neg h2, if_neg h2]
        cases cur with
        | some pc => exact ih _ acc idx
        | none => exact ih none acc idx

theorem underfillGoChecked_eq (gas : Nat) : ∀ (totalLines : Nat) (ls : List String),
    underfillGoChecked gas totalLines ls = some (underfillGo gas totalLines ls) := by
  induction gas with
  | zero => intro t ls; rfl
  | succ gas ih =>
    intro t ls
    rw [underfillGo_succ, underfillGoChecked]
    by_cases hC : ls.length < t ∧ 0 < ls.length
    · rw [if_pos hC, if_pos hC]
      have hne : ls ≠ [] := by
        intro h0
        rw [h0] at hC
        simp at hC
      have hidx := findLongestIndex_lt ls hne
      have hget : ls[findLongestIndex ls]? = some (ls.getD (findLongestIndex ls) "") := by
        rw [List.getD_eq_getElem?_getD, List.getElem?_eq_getElem hidx]
        rfl
      rw [hget]
      simp only []
      by_cases hw : (splitChar ' ' (ls.getD (findLongestIndex ls) "")).length > 1
      · rw [if_pos hw, if_pos hw]
        exact ih t _
      · rw [if_neg hw, if_neg hw]
    · rw [if_neg hC, if_neg hC]

/-- C7: the four core transformations are total over their documented input
domains.  `groupCuesIntoSentences` and `reconstructVTT` are total Lean
functions by construction; for `parse` and `redistributeTranslation` the
JS-risky accesses (the `[startTime, endTime]` destructuring of the split
timestamp line, and `translatedLines[longestIndex].split(' ')`) are modelled
with explicit `Option`s in `parseChecked` / `redistributeChecked`, and both
always succeed, agreeing with the total functions. -/
theorem c7_totality (s : String) (g : VTTGroup) (t : String) :
    parseChecked s = some (parse s) ∧
      redistributeChecked g t = some (redistributeTranslation g t) := by
  refine ⟨parseLinesChecked_eq _ none [] 0, ?_⟩
  rw [redistributeChecked, redistributeTranslation, underfillGoChecked_eq]
  rfl

theorem parseLines_indices (lines : List String) : ∀ (cur : Option PartialCue)
    (acc : List VTTCue) (idx : Nat),
    ∃ n, (parseLines lines cur acc idx).map VTTCue.originalIndex =
      acc.map VTTCue.originalIndex ++ List.range' idx n := by
  induction lines with
  | nil =>
    intro cur acc idx
    cases cur with
    | none => exact ⟨0, by simp [parseLines]⟩
    | some pc =>
      by_cases h : pc.textLines = []
      · refine ⟨0, ?_⟩
        simp [parseLines, h]
      · refine ⟨1, ?_⟩
        simp [parseLines, finalizeCue, h, List.range'_one]
  | cons raw rest ih =>
    intro cur acc idx
    simp only [parseLines]
    by_cases h1 : jsTrim raw = "" ∨ jsTrim raw = "WEBVTT"
    · rw [if_pos h1]
      exact ih cur acc idx
    · rw [if_neg h1]
      by_cases h2 : containsArrow (jsTrim raw).data = true
      · rw [if_pos h2]
        cases cur with
        | none => exact ih _ acc idx
        | some pc =>
          by_cases h3 : pc.textLines = []
          · simp only [if_neg (show ¬ pc.textLines ≠ [] by simpa using h3)]
            exact ih _ acc idx
          · simp only [if_pos (show pc.textLines ≠ [] by simpa using h3)]
            obtain ⟨n, hn⟩ := ih (some ⟨((splitArrow (jsTrim raw)).map fun p =>
              jsTrim (String.mk p)).headD "", ((splitArrow (jsTrim raw)).map fun p =>
              jsTrim (String.mk p)).getD 1 "", []⟩) (acc ++ [finalizeCue pc idx]) (idx + 1)
            refine ⟨n + 1, ?_⟩
            rw [hn]
            simp only [List.map_append, List.map_cons, List.map_nil, List.append_assoc]
            congr 1
      · rw [if_neg h2]
        cases cur with
        | some pc => exact ih _ acc idx
        | none => exact ih none acc idx

theorem parse_indices (input : String) :
    (parse input).map VTTCue.originalIndex = List.range (parse input).length := by
  obtain ⟨n, hn⟩ := parseLines_indices (splitChar '\n' input) none [] 0
  rw [parse, hn]
  have hlen : (parseLines (splitChar '\n' input) none [] 0).length = n := by
    have hl := congrArg List.length hn
    simpa using hl
  rw [List.range_eq_range', hlen]
  simp

/-- C9: the cue sequence returned by `parse` carries `originalIndex` values
`0, 1, 2, …` in order: the cue at position `i` has `originalIndex = i`, the
values are strictly increasing from 0 and therefore unique. -/
theorem c9_index_monotonicity (input : String) :
    (parse input).map VTTCue.originalIndex = List.range (parse input).length :=
  parse_indices input

/-! ## Round-trip machinery (C1) -/

theorem trimData_within (l : List Char) : trimData l <:+: l := by
  have hsuf : l.dropWhile Char.isWhitespace <:+ l := List.dropWhile_suffix _
  have hsuf2 : (l.dropWhile Char.isWhitespace).reverse.dropWhile Char.isWhitespace <:+
      (l.dropWhile Char.isWhitespace).reverse := List.dropWhile_suffix _
  obtain ⟨p, hp⟩ := hsuf
  obtain ⟨q, hq⟩ := hsuf2
  refine ⟨p, q.reverse, ?_⟩
  have h2 : trimData l ++ q.reverse = l.dropWhile Char.isWhitespace := by
    have h3 := congrArg List.reverse hq
    simpa [trimData] using h3
  calc p ++ trimData l ++ q.reverse
      = p ++ (trimData l ++ q.reverse) := by simp
    _ = p ++ l.dropWhile Char.isWhitespace := by rw [h2]
    _ = l := hp

theorem mem_of_mem_trimData {c : Char} {l : List Char} (h : c ∈ trimData l) : c ∈ l :=
  (trimData_within l).sublist.subset h

theorem noArrow_trimData (l : List Char) (h : containsArrow l = false) :
    containsArrow (trimData l) = false :=
  noArrow_of_inside (trimData_within l) h

theorem trim_snoc_space (l : List Char) (h : trimData l = l) :
    trimData (l ++ [' ']) = l := by
  cases l with
  | nil => decide
  | cons c cs =>
    have hh := headNotWS_of_trimData_eq_self _ h c rfl
    have hl := lastNotWS_of_trimData_eq_self _ h
    rw [trimData, List.cons_append, List.dropWhile_cons, if_neg (by simp [hh])]
    rw [show (c :: (cs ++ [' '])).reverse = ' ' :: (c :: cs).reverse by simp]
    rw [List.dropWhile_cons, if_pos (by decide)]
    exact reverse_dropWhile_ws_of_lastNotWS _ hl

theorem trim_cons_space (l : List Char) (h : trimData l = l) :
    trimData (' ' :: l) = l := by
  cases hl : l with
  | nil => decide
  | cons c cs =>
    rw [← hl]
    have hh := headNotWS_of_trimData_eq_self _ h
    have hlast := lastNotWS_of_trimData_eq_self _ h
    rw [trimData, List.dropWhile_cons, if_pos (by decide)]
    rw [dropWhile_ws_of_headNotWS l hh]
    exact reverse_dropWhile_ws_of_lastNotWS _ hlast

theorem noArrow_cons_space (l : List Char) (h : containsArrow l = false) :
    containsArrow (' ' :: l) = false := by
  rw [containsArrow, Bool.or_eq_false_iff]
  refine ⟨?_, h⟩
  cases hp : arrowToken.isPrefixOf (' ' :: l) with
  | false => rfl
  | true =>
    obtain ⟨rest, hr⟩ := (arrow_isPrefixOf_iff _).mp hp
    injection hr with hc _
    cases hc

theorem parse_line_WFtime (line : String) (hnl : '\n' ∉ line.data)
    (p : List Char) (hp : p ∈ splitArrowAux line.data []) :
    WFtime (jsTrim (String.mk p)) := by
  obtain ⟨hfree, hinf⟩ := splitArrow_pieces line.data.length line.data (Nat.le_refl _) p hp
  refine ⟨jsTrim_idem _, noArrow_trimData p hfree, ?_⟩
  intro hmem
  exact hnl (hinf.sublist.subset (mem_of_mem_trimData hmem))

theorem parseLines_WF (lines : List String) : ∀ (cur : Option PartialCue)
    (acc : List VTTCue) (idx : Nat),
    (∀ raw ∈ lines, '\n' ∉ raw.data) →
    (∀ c ∈ acc, WFcue c) → WFopenCue cur →
    ∀ c ∈ parseLines lines cur acc idx, WFcue c := by
  induction lines with
  | nil =>
    intro cur acc idx _ hacc hcur c hc
    cases cur with
    | none => exact hacc c hc
    | some pc =>
      simp only [WFopenCue] at hcur
      rw [parseLines] at hc
      by_cases h : pc.textLines = []
      · rw [if_neg (by simpa using h)] at hc
        exact hacc c hc
      · rw [if_pos (by simpa using h)] at hc
        rcases List.mem_append.mp hc with hc | hc
        · exact hacc c hc
        · rw [List.mem_singleton] at hc
          subst hc
          exact ⟨h, hcur.1, hcur.2.1, hcur.2.2⟩
  | cons raw rest ih =>
    intro cur acc idx hnl hacc hcur c hc
    have hnlraw : '\n' ∉ (jsTrim raw).data :=
      fun hm => hnl raw (by simp) (mem_of_mem_trimData hm)
    have hnlrest : ∀ r ∈ rest, '\n' ∉ r.data :=
      fun r hr => hnl r (List.mem_cons_of_mem raw hr)
    simp only [parseLines] at hc
    by_cases h1 : jsTrim raw = "" ∨ jsTrim raw = "WEBVTT"
    · rw [if_pos h1] at hc
      exact ih cur acc idx hnlrest hacc hcur c hc
    · rw [if_neg h1] at hc
      by_cases h2 : containsArrow (jsTrim raw).data = true
      · rw [if_pos h2] at hc
        obtain ⟨q0, q1, qr, hQ⟩ : ∃ q0 q1 qr,
            splitArrowAux (jsTrim raw).data [] = q0 :: q1 :: qr := by
          have hlen := two_le_splitArrowAux_length (jsTrim raw).data h2 []
          cases hx : splitArrowAux (jsTrim raw).data [] with
          | nil => rw [hx] at hlen; simp at hlen
          | cons a as =>
            cases as with
            | nil => rw [hx] at hlen; simp at hlen
            | cons b bs => exact ⟨a, b, bs, rfl⟩
        rw [show splitArrow (jsTrim raw) = q0 :: q1 :: qr from hQ] at hc
        simp only [List.map_cons, List.headD_cons, List.getD_cons_succ,
          List.getD_cons_zero] at hc
        have hwf0 : WFtime (jsTrim (String.mk q0)) :=
          parse_line_WFtime (jsTrim raw) hnlraw q0 (by rw [hQ]; simp)
        have hwf1 : WFtime (jsTrim (String.mk q1)) :=
          parse_line_WFtime (jsTrim raw) hnlraw q1 (by rw [hQ]; simp)
        have hacc' : ∀ x ∈ (match cur with
            | some pc => if pc.textLines ≠ [] then
                (acc ++ [finalizeCue pc idx], idx + 1) else (acc, idx)
            | none => (acc, idx) : List VTTCue × Nat).1, WFcue x := by
          cases cur with
          | none => exact hacc
          | some pc =>
            simp only [WFopenCue] at hcur
            by_cases h : pc.textLines = []
            · simp only [if_neg (show ¬ pc.textLines ≠ [] by simpa using h)]
              exact hacc
            · simp only [if_pos (show pc.textLines ≠ [] by simpa using h)]
              intro x hx
              rcases List.mem_append.mp hx with hx | hx
              · exact hacc x hx
              · rw [List.mem_singleton] at hx
                subst hx
                exact ⟨h, hcur.1, hcur.2.1, hcur.2.2⟩
        have hpart : WFopenCue (some ⟨jsTrim (String.mk q0), jsTrim (String.mk q1), []⟩) := by
          simp only [WFopenCue]
          exact ⟨by simp, hwf0, hwf1⟩
        exact ih _ _ _ hnlrest hacc' hpart c hc
      · rw [if_neg h2] at hc
        cases cur with
        | none => exact ih none acc idx hnlrest hacc trivial c hc
        | some pc =>
          simp only [WFopenCue] at hcur
          have hline : WFline (jsTrim raw) := by
            refine ⟨jsTrim_idem raw, ?_, ?_, ?_, hnlraw⟩
            · intro h0; exact h1 (Or.inl h0)
            · intro h0; exact h1 (Or.inr h0)
            · rw [Bool.not_eq_true] at h2; exact h2
          have hpart : WFopenCue (some ⟨pc.startTime, pc.endTime,
              pc.textLines ++ [jsTrim raw]⟩) := by
            simp only [WFopenCue]
            refine ⟨?_, hcur.2.1, hcur.2.2⟩
            intro l hl
            rcases List.mem_append.mp hl with hl | hl
            · exact hcur.1 l hl
            · rw [List.mem_singleton] at hl
              subst hl
              exact hline
          exact ih _ acc idx hnlrest hacc hpart c hc

theorem parse_WF (input : String) : ∀ c ∈ parse input, WFcue c := by
  apply parseLines_WF
  · intro raw hraw
    exact mem_splitCharAux_no_sep '\n' input.data [] (by simp) raw hraw
  · intro c hc
    cases hc
  · trivial

theorem head?_append_left {α : Type} (l l' : List α) (h : l ≠ []) :
    (l ++ l').head? = l.head? := by
  cases l with
  | nil => cases h rfl
  | cons a as => rfl

theorem WFtime_head_last (s : String) (h : WFtime s) :
    HeadNotWS s.data ∧ LastNotWS s.data := by
  have hdata : trimData s.data = s.data := congrArg String.data h.1
  exact ⟨headNotWS_of_trimData_eq_self _ hdata, lastNotWS_of_trimData_eq_self _ hdata⟩

theorem sep5_data : (" --> " : String).data = [' ', '-', '-', '>', ' '] := rfl

theorem tsLine_data (c : VTTCue) :
    (tsLine c).data = c.startTime.data ++ [' ', '-', '-', '>', ' '] ++ c.endTime.data := by
  rw [tsLine, String.data_append, String.data_append, sep5_data]

theorem tsLine_trim_decomp (c : VTTCue) (hst : WFtime c.startTime) (hen : WFtime c.endTime) :
    (jsTrim (tsLine c)).data =
      (if c.startTime = "" then [] else c.startTime.data ++ [' ']) ++ arrowToken ++
        (if c.endTime = "" then [] else ' ' :: c.endTime.data) := by
  have hstd := WFtime_head_last _ hst
  have hend := WFtime_head_last _ hen
  have hT : (jsTrim (tsLine c)).data = trimData (tsLine c).data := rfl
  rw [hT, tsLine_data]
  by_cases hs : c.startTime = ""
  · by_cases he : c.endTime = ""
    · rw [if_pos hs, if_pos he, hs, he]
      decide
    · rw [if_pos hs, if_neg he, hs]
      have hene : c.endTime.data ≠ [] := (string_ne_empty_iff_data _).mp he
      simp only [show ("" : String).data = [] from rfl, List.nil_append]
      rw [trimData]
      rw [show ([' ', '-', '-', '>', ' '] ++ c.endTime.data : List Char) =
        ' ' :: ('-' :: '-' :: '>' :: ' ' :: c.endTime.data) from rfl]
      rw [List.dropWhile_cons, if_pos (by decide), List.dropWhile_cons, if_neg (by decide)]
      have hlast : LastNotWS ('-' :: '-' :: '>' :: ' ' :: c.endTime.data) := by
        intro ch hch
        rw [show ('-' :: '-' :: '>' :: ' ' :: c.endTime.data : List Char) =
          ['-', '-', '>', ' '] ++ c.endTime.data from rfl] at hch
        rw [getLast?_append_ne_nil _ _ hene] at hch
        exact hend.2 ch hch
      rw [reverse_dropWhile_ws_of_lastNotWS _ hlast]
      rfl
  · by_cases he : c.endTime = ""
    · rw [if_neg hs, if_pos he, he]
      have hstne : c.startTime.data ≠ [] := (string_ne_empty_iff_data _).mp hs
      simp only [show ("" : String).data = [] from rfl, List.append_nil]
      rw [trimData]
      rw [dropWhile_ws_of_headNotWS (c.startTime.data ++ [' ', '-', '-', '>', ' ']) (by
        intro ch hch
        rw [head?_append_left _ _ hstne] at hch
        exact hstd.1 ch hch)]
      rw [List.reverse_append, show ([' ', '-', '-', '>', ' '] : List Char).reverse =
        ' ' :: '>' :: '-' :: '-' :: [' '] from rfl]
      rw [show (' ' :: '>' :: '-' :: '-' :: [' '] : List Char) ++ c.startTime.data.reverse =
        ' ' :: ('>' :: '-' :: '-' :: ' ' :: c.startTime.data.reverse) from rfl]
      rw [List.dropWhile_cons, if_pos (by decide), List.dropWhile_cons, if_neg (by decide)]
      rw [show ('>' :: '-' :: '-' :: ' ' :: c.startTime.data.reverse : List Char).reverse =
        c.startTime.data.reverse.reverse ++ [' ', '-', '-', '>'] by simp]
      rw [List.reverse_reverse]
      rw [arrowToken]
      simp
    · rw [if_neg hs, if_neg he]
      have hstne : c.startTime.data ≠ [] := (string_ne_empty_iff_data _).mp hs
      have hene : c.endTime.data ≠ [] := (string_ne_empty_iff_data _).mp he
      rw [trimData_eq_self_of]
      · rw [arrowToken]
        simp
      · intro ch hch
        rw [List.append_assoc, head?_append_left _ _ hstne] at hch
        exact hstd.1 ch hch
      · intro ch hch
        rw [getLast?_append_ne_nil _ _ hene] at hch
        exact hend.2 ch hch

theorem tsLine_roundtrip (c : VTTCue) (hst : WFtime c.startTime) (hen : WFtime c.endTime) :
    containsArrow (jsTrim (tsLine c)).data = true ∧
    jsTrim (tsLine c) ≠ "" ∧ jsTrim (tsLine c) ≠ "WEBVTT" ∧
    ((splitArrow (jsTrim (tsLine c))).map fun p => jsTrim (String.mk p)).headD "" =
      c.startTime ∧
    ((splitArrow (jsTrim (tsLine c))).map fun p => jsTrim (String.mk p)).getD 1 "" =
      c.endTime := by
  have hdec := tsLine_trim_decomp c hst hen
  set padL := if c.startTime = "" then ([] : List Char) else c.startTime.data ++ [' ']
    with hpadL
  set padR := if c.endTime = "" then ([] : List Char) else ' ' :: c.endTime.data
    with hpadR
  have hfreeL : containsArrow (padL ++ ['-', '-']) = false := by
    rw [hpadL]
    by_cases hs : c.startTime = ""
    · rw [if_pos hs]; decide
    · rw [if_neg hs, List.append_assoc]
      exact noArrow_append_no_gt _ _ hst.2.1 (by decide)
  have hfreeR : containsArrow padR = false := by
    rw [hpadR]
    by_cases he : c.endTime = ""
    · rw [if_pos he]; rfl
    · rw [if_neg he]
      exact noArrow_cons_space _ hen.2.1
  have hsplit : splitArrow (jsTrim (tsLine c)) = [padL, padR] := by
    rw [splitArrow, hdec, splitArrowAux_arrow padL padR [] hfreeL,
      splitArrowAux_no_arrow padR hfreeR []]
    simp
  have htrimL : jsTrim (String.mk padL) = c.startTime := by
    rw [hpadL]
    by_cases hs : c.startTime = ""
    · rw [if_pos hs, hs]; rfl
    · rw [if_neg hs]
      have h1 : trimData c.startTime.data = c.startTime.data := congrArg String.data hst.1
      show String.mk (trimData (c.startTime.data ++ [' '])) = c.startTime
      rw [trim_snoc_space _ h1]
  have htrimR : jsTrim (String.mk padR) = c.endTime := by
    rw [hpadR]
    by_cases he : c.endTime = ""
    · rw [if_pos he, he]; rfl
    · rw [if_neg he]
      have h1 : trimData c.endTime.data = c.endTime.data := congrArg String.data hen.1
      show String.mk (trimData (' ' :: c.endTime.data)) = c.endTime
      rw [trim_cons_space _ h1]
  have harrow : containsArrow (jsTrim (tsLine c)).data = true := by
    rw [hdec]
    exact (containsArrow_iff _).mpr ⟨padL, padR, rfl⟩
  refine ⟨harrow, ?_, ?_, ?_, ?_⟩
  · rw [string_ne_empty_iff_data, hdec]
    intro h0
    have hlen := congrArg List.length h0
    simp [arrowToken] at hlen
  · intro hW
    rw [hW] at harrow
    exact absurd harrow (by decide)
  · rw [hsplit]
    simp only [List.map_cons, List.headD_cons]
    exact htrimL
  · rw [hsplit]
    simp only [List.map_cons, List.getD_cons_succ, List.getD_cons_zero]
    exact htrimR

theorem cueBlock_eq (c : VTTCue) : cueBlock c = blockCore c ++ "\n\n" := by
  rw [cueBlock, blockCore]

theorem reconstruct_fold (cs : List VTTCue) : ∀ (r : String),
    cs.foldl (fun result cue => result ++ cueBlock cue) (r ++ "\n\n") =
      cs.foldl (fun result cue => result ++ "\n\n" ++ blockCore cue) r ++ "\n\n" := by
  induction cs with
  | nil => intro r; rfl
  | cons c cs ih =>
    intro r
    rw [List.foldl_cons, List.foldl_cons]
    rw [show r ++ "\n\n" ++ cueBlock c = r ++ "\n\n" ++ blockCore c ++ "\n\n" by
      rw [cueBlock_eq, ← String.append_assoc]]
    exact ih (r ++ "\n\n" ++ blockCore c)

theorem reconstructVTT_eq_gBody (cs : List VTTCue) :
    reconstructVTT cs =
      jsTrim (gBody (cs.mergeSort fun a b => a.originalIndex ≤ b.originalIndex) ++ "\n\n") := by
  rw [reconstructVTT, gBody]
  congr 1
  rw [show ("WEBVTT\n\n" : String) = "WEBVTT" ++ "\n\n" by rfl]
  exact reconstruct_fold _ "WEBVTT"

theorem gBody_shift (cs : List VTTCue) : ∀ (a b : String),
    cs.foldl (fun result cue => result ++ "\n\n" ++ blockCore cue) (a ++ b) =
      a ++ cs.foldl (fun result cue => result ++ "\n\n" ++ blockCore cue) b := by
  induction cs with
  | nil => intro a b; rfl
  | cons c cs ih =>
    intro a b
    rw [List.foldl_cons, List.foldl_cons]
    rw [show a ++ b ++ "\n\n" ++ blockCore c = a ++ (b ++ "\n\n" ++ blockCore c) by
      simp [String.append_assoc]]
    exact ih a (b ++ "\n\n" ++ blockCore c)

theorem gBody_head (cs : List VTTCue) : (gBody cs).data.head? = some 'W' := by
  rw [gBody, show ("WEBVTT" : String) = "WEBVTT" ++ "" by simp, gBody_shift,
    String.data_append]
  rfl

theorem getLast?_eq_none_iff' {α : Type} (l : List α) : l.getLast? = none ↔ l = [] := by
  cases l with
  | nil => simp
  | cons a as =>
    constructor
    · intro h
      rw [List.getLast?_eq_head?_reverse] at h
      cases hr : (a :: as).reverse with
      | nil =>
        have := congrArg List.length hr
        simp at this
      | cons b bs => rw [hr] at h; simp at h
    · intro h; cases h

theorem jsJoin_data_getLast? (sep : String) (ls : List String) : ∀ (l : String),
    ls.getLast? = some l → l ≠ "" →
    (jsJoin sep ls).data.getLast? = l.data.getLast? := by
  induction ls with
  | nil => intro l hl; cases hl
  | cons x xs ih =>
    intro l hl hne
    cases xs with
    | nil =>
      have : x = l := by simpa using hl
      subst this
      rfl
    | cons y ys =>
      have hl' : (y :: ys).getLast? = some l := by
        rwa [List.getLast?_cons_cons] at hl
      have hrec := ih l hl' hne
      have hJne : (jsJoin sep (y :: ys)).data ≠ [] := by
        intro h0
        rw [h0] at hrec
        have hld : l.data = [] := (getLast?_eq_none_iff' _).mp hrec.symm
        exact (string_ne_empty_iff_data l).mp hne hld
      rw [show jsJoin sep (x :: y :: ys) = x ++ sep ++ jsJoin sep (y :: ys) from rfl,
        String.data_append, getLast?_append_ne_nil _ _ hJne]
      exact hrec

theorem blockCore_data (c : VTTCue) :
    (blockCore c).data = (tsLine c).data ++ '\n' :: (jsJoin "\n" c.textLines).data := by
  rw [blockCore, String.data_append, String.data_append]
  simp

theorem tsLine_no_nl (c : VTTCue) (hst : WFtime c.startTime) (hen : WFtime c.endTime) :
    '\n' ∉ (tsLine c).data := by
  rw [tsLine_data]
  intro hm
  rcases List.mem_append.mp hm with hm1 | hm2
  · rcases List.mem_append.mp hm1 with hm1 | hm1
    · exact hst.2.2 hm1
    · exact (by decide : ¬ ('\n' ∈ ([' ', '-', '-', '>', ' '] : List Char))) hm1
  · exact hen.2.2 hm2

theorem jsTrim_append_nn (G : String) (hW : G.data.head? = some 'W')
    (hlast : LastNotWS G.data) : jsTrim (G ++ "\n\n") = G := by
  rw [jsTrim, String.data_append, show ("\n\n" : String).data = ['\n', '\n'] from rfl]
  have hGne : G.data ≠ [] := by
    intro h0; rw [h0] at hW; cases hW
  obtain ⟨rest, hG⟩ : ∃ rest, G.data = 'W' :: rest := by
    cases hd : G.data with
    | nil => exact absurd hd hGne
    | cons a as =>
      rw [hd] at hW
      simp at hW
      exact ⟨as, by rw [hW]⟩
  rw [trimData, hG]
  rw [List.cons_append, List.dropWhile_cons, if_neg (by decide)]
  rw [show (('W' :: (rest ++ ['\n', '\n'])).reverse : List Char) =
    '\n' :: '\n' :: ('W' :: rest).reverse by simp]
  rw [List.dropWhile_cons, if_pos (by decide), List.dropWhile_cons, if_pos (by decide)]
  rw [← hG]
  rw [reverse_dropWhile_ws_of_lastNotWS _ hlast]


theorem splitCharAux_cons_sep (x : List Char) :
    splitCharAux '\n' ('\n' :: x) [] = "" :: splitCharAux '\n' x [] := by
  rw [splitCharAux, if_pos rfl]
  rfl

theorem splitNl_blockCore (c : VTTCue) (hwf : WFcue c) :
    splitCharAux '\n' (blockCore c).data [] = tsLine c :: c.textLines := by
  rw [blockCore_data, splitCharAux_append]
  rw [splitCharAux_no_sep '\n' (tsLine c).data [] (tsLine_no_nl c hwf.2.2.1 hwf.2.2.2)]
  rw [splitCharAux_jsJoin c.textLines hwf.1 (fun l hl => (hwf.2.1 l hl).2.2.2.2)]
  simp

theorem splitNl_foldl (cs : List VTTCue) : ∀ (r : String), (∀ c ∈ cs, WFcue c) →
    splitCharAux '\n'
        (cs.foldl (fun result cue => result ++ "\n\n" ++ blockCore cue) r).data [] =
      splitCharAux '\n' r.data [] ++ linesFlat cs := by
  induction cs with
  | nil => intro r _; simp [linesFlat]
  | cons c cs ih =>
    intro r hwf
    rw [List.foldl_cons, ih (r ++ "\n\n" ++ blockCore c)
      (fun x hx => hwf x (List.mem_cons_of_mem c hx))]
    have hdata : (r ++ "\n\n" ++ blockCore c).data =
        r.data ++ '\n' :: ('\n' :: (blockCore c).data) := by
      rw [String.data_append, String.data_append]
      simp
    rw [hdata, splitCharAux_append, splitCharAux_cons_sep,
      splitNl_blockCore c (hwf c (by simp)), linesFlat]
    simp

theorem gBody_lines (cs : List VTTCue) (hwf : ∀ c ∈ cs, WFcue c) :
    splitChar '\n' (gBody cs) = "WEBVTT" :: linesFlat cs := by
  rw [splitChar, gBody, splitNl_foldl cs "WEBVTT" hwf,
    splitCharAux_no_sep '\n' ("WEBVTT" : String).data [] (by decide)]
  rfl

theorem gBody_lastNotWS (cs' : List VTTCue) (c : VTTCue) (hwf : WFcue c) :
    LastNotWS (gBody (cs' ++ [c])).data := by
  intro ch hch
  rw [gBody, List.foldl_append] at hch
  rw [List.foldl_cons, List.foldl_nil] at hch
  rw [String.data_append] at hch
  have hbcne : (blockCore c).data ≠ [] := by
    rw [blockCore_data]
    intro h0
    have := congrArg List.length h0
    simp at this
  rw [getLast?_append_ne_nil _ _ hbcne] at hch
  rw [blockCore_data] at hch
  have hJne : (jsJoin "\n" c.textLines).data.getLast? =
      (c.textLines.getLast (hwf.1)).data.getLast? := by
    apply jsJoin_data_getLast?
    · exact List.getLast?_eq_getLast _ _
    · exact (hwf.2.1 _ (List.getLast_mem hwf.1)).2.1
  have hJne' : (jsJoin "\n" c.textLines).data ≠ [] := by
    intro h0
    rw [h0] at hJne
    have hld := (getLast?_eq_none_iff' _).mp hJne.symm
    exact (string_ne_empty_iff_data _).mp
      ((hwf.2.1 _ (List.getLast_mem hwf.1)).2.1) hld
  rw [getLast?_append_ne_nil _ _ (show ('\n' :: (jsJoin "\n" c.textLines).data) ≠ [] by
    simp)] at hch
  rw [← List.singleton_append, getLast?_append_ne_nil _ _ hJne'] at hch
  rw [hJne] at hch
  have hlast := trimmedNE_head_last _
    ⟨(hwf.2.1 _ (List.getLast_mem hwf.1)).1, (hwf.2.1 _ (List.getLast_mem hwf.1)).2.1⟩
  exact hlast.2 ch hch

theorem parseLines_skip_header (L : List String) (cur : Option PartialCue)
    (acc : List VTTCue) (idx : Nat) :
    parseLines ("WEBVTT" :: L) cur acc idx = parseLines L cur acc idx := by
  simp only [parseLines]
  rw [if_pos (Or.inr (by rw [show jsTrim "WEBVTT" = "WEBVTT" by rfl]))]

theorem parseLines_skip_empty (L : List String) (cur : Option PartialCue)
    (acc : List VTTCue) (idx : Nat) :
    parseLines ("" :: L) cur acc idx = parseLines L cur acc idx := by
  simp only [parseLines]
  rw [if_pos (Or.inl (by rw [show jsTrim "" = "" by rfl]))]

theorem parseLines_text_run (ls : List String) : ∀ (L : List String) (st en : String)
    (tl : List String) (acc : List VTTCue) (idx : Nat),
    (∀ l ∈ ls, WFline l) →
    parseLines (ls ++ L) (some ⟨st, en, tl⟩) acc idx =
      parseLines L (some ⟨st, en, tl ++ ls⟩) acc idx := by
  induction ls with
  | nil =>
    intro L st en tl acc idx _
    rw [List.nil_append, List.append_nil]
  | cons l ls ih =>
    intro L st en tl acc idx hwf
    have hl := hwf l (by simp)
    rw [List.cons_append]
    simp only [parseLines]
    rw [hl.1]
    rw [if_neg (by
      intro hor
      rcases hor with h0 | h0
      · exact hl.2.1 h0
      · exact hl.2.2.1 h0)]
    rw [if_neg (by rw [hl.2.2.2.1]; simp)]
    rw [ih L st en (tl ++ [l]) acc idx (fun x hx => hwf x (List.mem_cons_of_mem l hx))]
    rw [List.append_assoc]
    rfl

theorem parseLines_blocks (cs : List VTTCue) : ∀ (pc : PartialCue) (acc : List VTTCue)
    (idx : Nat), (∀ c ∈ cs, WFcue c) → pc.textLines ≠ [] →
    parseLines (linesFlat cs) (some pc) acc idx =
      acc ++ finalizeCue pc idx :: reindexFrom (idx + 1) cs := by
  induction cs with
  | nil =>
    intro pc acc idx _ hne
    rw [linesFlat, parseLines, if_pos (by simpa using hne)]
    rw [reindexFrom]
  | cons c cs ih =>
    intro pc acc idx hwf hne
    have hc := hwf c (by simp)
    obtain ⟨harrow, hne', hnW, hst, hen⟩ := tsLine_roundtrip c hc.2.2.1 hc.2.2.2
    rw [linesFlat, parseLines_skip_empty]
    simp only [parseLines]
    rw [if_neg (by
      intro hor
      rcases hor with h0 | h0
      · exact hne' h0
      · exact hnW h0)]
    rw [if_pos harrow]
    simp only [if_pos (show pc.textLines ≠ [] from hne)]
    rw [hst, hen]
    rw [parseLines_text_run c.textLines (linesFlat cs) c.startTime c.endTime []
      (acc ++ [finalizeCue pc idx]) (idx + 1) hc.2.1]
    rw [List.nil_append]
    rw [ih ⟨c.startTime, c.endTime, c.textLines⟩ (acc ++ [finalizeCue pc idx]) (idx + 1)
      (fun x hx => hwf x (List.mem_cons_of_mem c hx)) (by simpa using hc.1)]
    rw [reindexFrom]
    simp only [List.append_assoc, List.singleton_append]
    rfl

theorem parse_gBody (cs : List VTTCue) (hwf : ∀ c ∈ cs, WFcue c) :
    parse (gBody cs) = reindexFrom 0 cs := by
  rw [parse, gBody_lines cs hwf, parseLines_skip_header]
  cases cs with
  | nil => rfl
  | cons c cs' =>
    have hc := hwf c (by simp)
    obtain ⟨harrow, hne', hnW, hst, hen⟩ := tsLine_roundtrip c hc.2.2.1 hc.2.2.2
    rw [linesFlat, parseLines_skip_empty]
    simp only [parseLines]
    rw [if_neg (by
      intro hor
      rcases hor with h0 | h0
      · exact hne' h0
      · exact hnW h0)]
    rw [if_pos harrow]
    rw [hst, hen]
    rw [parseLines_text_run c.textLines (linesFlat cs') c.startTime c.endTime []
      [] 0 hc.2.1]
    rw [List.nil_append]
    rw [parseLines_blocks cs' ⟨c.startTime, c.endTime, c.textLines⟩ [] 0
      (fun x hx => hwf x (List.mem_cons_of_mem c hx)) (by simpa using hc.1)]
    rw [reindexFrom]
    rfl

theorem reindexFrom_eq_self (cs : List VTTCue) : ∀ (k : Nat),
    cs.map VTTCue.originalIndex = List.range' k cs.length → reindexFrom k cs = cs := by
  induction cs with
  | nil => intro k _; rfl
  | cons c cs ih =>
    intro k h
    rw [List.map_cons, List.length_cons, List.range'_succ] at h
    rw [List.cons_eq_cons] at h
    obtain ⟨h1, h2⟩ := h
    rw [reindexFrom, ih (k + 1) h2]
    cases c with
    | mk st en tl oi =>
      simp only at h1
      rw [h1]

theorem mergeSort_of_range_indices (cs : List VTTCue)
    (h : cs.map VTTCue.originalIndex = List.range cs.length) :
    (cs.mergeSort fun a b => a.originalIndex ≤ b.originalIndex) = cs := by
  apply List.mergeSort_of_sorted
  have hp : List.Pairwise (· < ·) (cs.map VTTCue.originalIndex) := by
    rw [h]
    exact List.pairwise_lt_range _
  rw [List.pairwise_map] at hp
  exact hp.imp fun hab => by simpa using Nat.le_of_lt hab

/-- C1: parsing the reconstruction of any parsed cue sequence reproduces it
exactly — same length and, at every position, the same `startTime`, `endTime`,
`textLines` and `originalIndex`. -/
theorem c1_round_trip (input : String) :
    parse (reconstructVTT (parse input)) = parse input := by
  have hwf := parse_WF input
  have hidx := parse_indices input
  rw [reconstructVTT_eq_gBody, mergeSort_of_range_indices _ hidx]
  rcases List.eq_nil_or_concat (parse input) with hnil | ⟨cs', c, hsnoc⟩
  · rw [hnil]
    decide
  · rw [List.concat_eq_append] at hsnoc
    have hlast : LastNotWS (gBody (parse input)).data := by
      rw [hsnoc]
      exact gBody_lastNotWS cs' c (hwf c (by rw [hsnoc]; simp))
    rw [jsTrim_append_nn _ (gBody_head _) hlast]
    rw [parse_gBody _ hwf]
    apply reindexFrom_eq_self
    rw [hidx, List.range_eq_range']
